import Mathlib

/-!
Verification development for the heuristic identity-extraction and
safe-rename engine (`ohs_batches/fileindexer.py`).

The Python source is shallowly embedded: strings are Lean `String`s
(lists of characters), the regular-expression patterns of the source are
compiled by hand into an executable backtracking matcher with Python
`re` semantics (leftmost match, greedy quantifiers, priority-ordered
alternation, word boundaries, lookahead), filesystem state is an
explicit list of directory entries, and the `os.rename` call is an
oracle assigning an outcome to every attempt.  Document text extraction
(PyPDF2, an external collaborator) is modelled by giving every file its
already-extracted text.
-/

namespace FileIndexer

/-- The apostrophe character (U+0027). -/
def apos : Char := Char.ofNat 39

/-- Python `str.isspace` / `\s` semantics for a single character
(space, tab, newline, carriage return, vertical tab, form feed, the
file/group/record/unit separators, and the Unicode space code points). -/
def pyIsSpace (c : Char) : Bool :=
  c.toNat = 32 || c.toNat = 9 || c.toNat = 10 || c.toNat = 13 ||
  c.toNat = 11 || c.toNat = 12 ||
  (28 ≤ c.toNat && c.toNat ≤ 31) || c.toNat = 133 || c.toNat = 160 ||
  c.toNat = 5760 || (8192 ≤ c.toNat && c.toNat ≤ 8202) || c.toNat = 8232 ||
  c.toNat = 8233 || c.toNat = 8239 || c.toNat = 8287 || c.toNat = 12288

/-- Python `\w` (word character) restricted to ASCII, as used by `\b`. -/
def isWordChar (c : Char) : Bool := c.isAlpha || c.isDigit || c = '_'

/-- ASCII uppercase letter, the class `[A-Z]`. -/
def isAsciiUpper (c : Char) : Bool := 'A' ≤ c && c ≤ 'Z'

/-- ASCII letter, the class `[a-zA-Z]`. -/
def isAsciiLetter (c : Char) : Bool := ('A' ≤ c && c ≤ 'Z') || ('a' ≤ c && c ≤ 'z')

/-- Python `str.lower` (ASCII case mapping suffices for this pipeline). -/
def pyLower (s : String) : String := ⟨s.data.map Char.toLower⟩

/-- Python `str.isupper`: at least one cased character and every cased
character uppercase. -/
def pyIsUpper (s : String) : Bool :=
  s.data.any (fun c => c.isAlpha) && s.data.all (fun c => !c.isAlpha || c.isUpper)

/-- Splitting helper for Python `str.split()` with no separator:
accumulates the current token (reversed) and splits on whitespace runs. -/
def wsTokensAux : List Char → List Char → List (List Char)
  | acc, [] => if acc = [] then [] else [acc.reverse]
  | acc, c :: cs =>
    if pyIsSpace c then
      if acc = [] then wsTokensAux [] cs else acc.reverse :: wsTokensAux [] cs
    else wsTokensAux (c :: acc) cs

/-- Python `s.split()`: maximal runs of non-whitespace characters. -/
def pySplit (s : String) : List String := (wsTokensAux [] s.data).map (fun l => ⟨l⟩)

/-- State-machine form of `re.sub(r"\s+", " ", s)`: the flag records
whether the previous character was inside a whitespace run. -/
def subWsAux : Bool → List Char → List Char
  | _, [] => []
  | inRun, c :: cs =>
    if pyIsSpace c then
      if inRun then subWsAux true cs else ' ' :: subWsAux true cs
    else c :: subWsAux false cs

/-- The substitution `re.sub(r"\s+", " ", s)`: every maximal whitespace
run becomes a single ordinary space. -/
def subWsRuns (l : List Char) : List Char := subWsAux false l

/-- Python `str.strip()` on a character list. -/
def pyStripList (l : List Char) : List Char :=
  ((l.dropWhile pyIsSpace).reverse.dropWhile pyIsSpace).reverse

/-- Python `str.strip()`. -/
def pyStrip (s : String) : String := ⟨pyStripList s.data⟩

/-- Python single-character `str.replace`. -/
def replaceChar (a b : Char) (s : String) : String :=
  ⟨s.data.map (fun c => if c = a then b else c)⟩

/-- The text normalizer `collapse_ws` of the source: non-breaking space
becomes a space; U+2010, U+2011, U+2013 and U+2014 become an ASCII
hyphen; whitespace runs collapse to one space; ends are trimmed. -/
def collapse_ws (s : String) : String :=
  let s1 := replaceChar (Char.ofNat 160) ' ' s
  let s2 := replaceChar (Char.ofNat 8208) '-' s1
  let s3 := replaceChar (Char.ofNat 8209) '-' s2
  let s4 := replaceChar (Char.ofNat 8211) '-' s3
  let s5 := replaceChar (Char.ofNat 8212) '-' s4
  pyStrip ⟨subWsRuns s5.data⟩

/-- One token of `norm_cap`: first character uppercased, rest lowered. -/
def capLower (t : String) : String :=
  match t.data with
  | [] => ""
  | c :: rest => ⟨c.toUpper :: rest.map Char.toLower⟩

/-- The source's `norm_cap`: per-token nice capitalization. -/
def norm_cap (s : String) : String := " ".intercalate ((pySplit s).map capLower)

/-! ## A small regular-expression engine with Python `re` semantics

The patterns of the source (`PAT_COMMA`, `PAT_SPACE`, `PAT_SEMI`,
`PAT_DVF`, `CONTEXT_REJECT`, `LABEL_TAIL`, `FILENAME_NOISE`) are
hand-compiled into this abstract syntax.  Matching is backtracking with
Python priorities: alternation is ordered, quantifiers are greedy, the
overall match is the leftmost one. -/

inductive RE : Type where
  | eps : RE
  | cls : (Char → Bool) → RE
  | seq : RE → RE → RE
  | alt : RE → RE → RE
  | star : RE → RE
  | opt : RE → RE
  | grp : Nat → RE → RE
  | wb : RE
  | eos : RE
  | look : RE → RE

/-- Structural size of a pattern, used to budget matcher fuel. -/
def reSize : RE → Nat
  | .eps => 1
  | .cls _ => 1
  | .seq a b => reSize a + reSize b + 1
  | .alt a b => reSize a + reSize b + 1
  | .star a => reSize a + 1
  | .opt a => reSize a + 1
  | .grp _ a => reSize a + 1
  | .wb => 1
  | .eos => 1
  | .look a => reSize a + 1

/-- Character of the subject at a position, if any. -/
def charAt (full : List Char) (pos : Nat) : Option Char := (full.drop pos).head?

/-- Is the character at `pos` a word character? (False beyond the ends.) -/
def isWordAt (full : List Char) (pos : Nat) : Bool :=
  match charAt full pos with
  | some c => isWordChar c
  | none => false

/-- Python `\b`: word-character-ness changes between `pos - 1` and `pos`. -/
def atWordBoundary (full : List Char) (pos : Nat) : Bool :=
  (if pos = 0 then false else isWordAt full (pos - 1)) != isWordAt full pos

/-- Python `$`: end of subject, or just before a final newline. -/
def atEos (full : List Char) (pos : Nat) : Bool :=
  pos = full.length ||
    (pos + 1 = full.length && charAt full pos == some (Char.ofNat 10))

/-- Captured group spans: (group index, start, stop). -/
abbrev Spans := List (Nat × Nat × Nat)

/-- Backtracking matcher in continuation-passing style.  The
continuation receives the position after the current pattern and the
captures so far; `none` from the continuation triggers backtracking.
Fuel only bounds pattern-structure descent and quantifier iterations;
it is chosen large enough in `matchAt` for the patterns used here. -/
def mat (full : List Char) :
    Nat → RE → Nat → Spans → (Nat → Spans → Option (Nat × Spans)) →
    Option (Nat × Spans)
  | 0, _, _, _, _ => none
  | fuel + 1, re, pos, gs, k =>
    match re with
    | .eps => k pos gs
    | .cls p =>
      match charAt full pos with
      | some c => if p c then k (pos + 1) gs else none
      | none => none
    | .seq a b => mat full fuel a pos gs (fun p g => mat full fuel b p g k)
    | .alt a b =>
      match mat full fuel a pos gs k with
      | some r => some r
      | none => mat full fuel b pos gs k
    | .star a =>
      match mat full fuel a pos gs
          (fun p g => if pos < p then mat full fuel (.star a) p g k else none) with
      | some r => some r
      | none => k pos gs
    | .opt a =>
      match mat full fuel a pos gs k with
      | some r => some r
      | none => k pos gs
    | .grp n a => mat full fuel a pos gs (fun p g => k p ((n, pos, p) :: g))
    | .wb => if atWordBoundary full pos then k pos gs else none
    | .eos => if atEos full pos then k pos gs else none
    | .look a =>
      match mat full fuel a pos gs (fun p g => some (p, g)) with
      | some (_, g) => k pos g
      | none => none

/-- One match: its span in the subject and its captured group spans. -/
structure RMatch : Type where
  mstart : Nat
  mstop : Nat
  groups : Spans
deriving Repr, DecidableEq

/-- Attempt a match anchored at `pos`. -/
def matchAt (full : List Char) (re : RE) (pos : Nat) : Option RMatch :=
  match mat full ((full.length + 2) * (reSize re + 2)) re pos []
      (fun p g => some (p, g)) with
  | some (p, g) => some ⟨pos, p, g⟩
  | none => none

/-- Scan for non-overlapping leftmost matches, as `re.finditer`. -/
def finditerAux (full : List Char) (re : RE) : Nat → Nat → List RMatch
  | _, 0 => []
  | pos, fuel + 1 =>
    if pos > full.length then []
    else
      match matchAt full re pos with
      | some m =>
        if pos < m.mstop then m :: finditerAux full re m.mstop fuel
        else m :: finditerAux full re (pos + 1) fuel
      | none => finditerAux full re (pos + 1) fuel

/-- All matches of `re` in the subject, in order. -/
def finditerL (full : List Char) (re : RE) : List RMatch :=
  finditerAux full re 0 (full.length + 2)

/-- String-level `re.finditer`. -/
def finditerS (re : RE) (s : String) : List RMatch := finditerL s.data re

/-- Python `re.search` as a Boolean. -/
def reSearch (re : RE) (s : String) : Bool := !(finditerS re s).isEmpty

/-- Slice `full[a:b]` with Python clamping. -/
def sliceStr (full : List Char) (a b : Nat) : String := ⟨(full.drop a).take (b - a)⟩

/-- Text of capture group `n` of a match (empty if the group is unset). -/
def groupStr (full : List Char) (m : RMatch) (n : Nat) : String :=
  match m.groups.find? (fun g => g.1 == n) with
  | some (_, a, b) => sliceStr full a b
  | none => ""

/-- Rebuild the subject with every matched span deleted, as
`pattern.sub("", s)`. -/
def reSubEmptyAux (full : List Char) : List RMatch → Nat → List Char
  | [], pos => full.drop pos
  | m :: ms, pos => ((full.drop pos).take (m.mstart - pos)) ++ reSubEmptyAux full ms m.mstop

/-- Python `pattern.sub("", s)`. -/
def reSubEmpty (re : RE) (s : String) : String :=
  ⟨reSubEmptyAux s.data (finditerL s.data re) 0⟩

/-! ### Pattern constructors -/

/-- Literal character (case-sensitive). -/
def lit1 (c : Char) : RE := .cls (fun x => x = c)

/-- Literal character, case-insensitive. -/
def ci1 (c : Char) : RE := .cls (fun x => x.toLower = c.toLower)

/-- Literal string (case-sensitive). -/
def lit (s : String) : RE := s.data.foldr (fun c r => .seq (lit1 c) r) .eps

/-- Literal string, case-insensitive. -/
def litCI (s : String) : RE := s.data.foldr (fun c r => .seq (ci1 c) r) .eps

/-- Ordered alternation of a list of patterns. -/
def altOf : List RE → RE
  | [] => .cls (fun _ => false)
  | [r] => r
  | r :: rs => .alt r (altOf rs)

/-- Sequence of a list of patterns. -/
def seqOf (rs : List RE) : RE := rs.foldr .seq .eps

/-- Greedy `+`. -/
def rplus (r : RE) : RE := .seq r (.star r)

/-- The pattern `\s*`. -/
def ws0 : RE := .star (.cls pyIsSpace)

/-- The pattern `\s+`. -/
def ws1 : RE := rplus (.cls pyIsSpace)

/-! ### The patterns of the source -/

/-- Characters allowed after the initial capital of a name part:
the class `[a-zA-Z'.\-]`. -/
def namePartRest (c : Char) : Bool :=
  isAsciiLetter c || c = apos || c = '.' || c = '-'

/-- `NAME_PART`: a capitalized word, `[A-Z][a-zA-Z'.\-]+`. -/
def namePart : RE := .seq (.cls isAsciiUpper) (rplus (.cls namePartRest))

/-- `NAME_PART` as it behaves under `re.I` (any-letter start). -/
def namePartCI : RE := .seq (.cls isAsciiLetter) (rplus (.cls namePartRest))

/-- The shape `NP(?:\s+NP)*`. -/
def nameSeq (np : RE) : RE := .seq np (.star (.seq ws1 np))

/-- `PAT_COMMA`: the pattern for a Last, First form. -/
def PAT_COMMA : RE :=
  seqOf [.wb, .grp 1 namePart, lit1 ',', ws0, .grp 2 (nameSeq namePart), .wb]

/-- `PAT_SPACE`: the pattern for a First Last form (flipped by callers). -/
def PAT_SPACE : RE :=
  seqOf [.wb, .grp 1 namePart, ws1, .grp 2 (nameSeq namePart), .wb]

/-- `PAT_SEMI`: the pattern for a Last; First form. -/
def PAT_SEMI : RE :=
  seqOf [.wb, .grp 1 namePart, lit1 ';', ws0, .grp 2 (nameSeq namePart), .wb]

/-- The lookahead of `PAT_DVF`, bounding the first-name capture at the
next known field label. -/
def dvfLook : RE :=
  .look (.seq ws0 (altOf [
    .eos,
    .cls (fun c => c = ',' || c = ';'),
    .seq (litCI "Grade") (.alt (.seq ws0 (lit1 ':')) .wb),
    .seq (litCI "Date") (.alt (.seq ws0 (lit1 ':')) .wb),
    .seq (litCI "Page") .wb,
    seqOf [litCI "Lower", ws1, litCI "School"],
    seqOf [litCI "Data", ws1, litCI "Verification"],
    .seq (litCI "Form") .wb]))

/-- `PAT_DVF`: the declared-name rule (Student Name: Last, First),
compiled with `re.I` so name parts may start with any letter. -/
def PAT_DVF : RE :=
  seqOf [litCI "Student", ws0, .opt (lit1 apos), .opt (ci1 's'), ws0,
    litCI "Name", ws0, .cls (fun c => c = ':' || c = '-'), ws0,
    .grp 1 (nameSeq namePartCI), ws0, .cls (fun c => c = ';' || c = ','), ws0,
    .grp 2 (nameSeq namePartCI), dvfLook]

/-- `CONTEXT_REJECT`: disqualifying context phrases near a document
match (case-insensitive). -/
def CONTEXT_REJECT : RE :=
  altOf [
    seqOf [litCI "Contact", ws1, litCI "Person", .opt (lit1 apos), ci1 's',
      ws1, litCI "Name"],
    litCI "Guardian",
    litCI "Parent",
    litCI "Emergency",
    seqOf [litCI "Student", ws1, litCI "Name", ws0, .opt (lit1 ','), ws0,
      litCI "Signature"],
    seqOf [.wb, litCI "Address", .wb],
    seqOf [.wb, ci1 'E', .opt (lit1 '-'), litCI "mail", .wb],
    seqOf [.wb, litCI "Comment", .opt (ci1 's'), .wb],
    seqOf [.wb, litCI "Absence", .wb],
    seqOf [.wb, litCI "Interim", .wb],
    seqOf [.wb, litCI "Birth", .wb],
    seqOf [.wb, litCI "Certificate"],
    seqOf [.wb, litCI "Admission", .opt (ci1 's'), .wb],
    seqOf [.wb, litCI "Administering", .wb],
    seqOf [.wb, litCI "Evaluation", .opt (ci1 's'), .wb],
    seqOf [.wb, litCI "Eval", .wb],
    seqOf [.wb, litCI "Record", .opt (ci1 's'),
      altOf [litCI "request", litCI "release", litCI "authorization"], .wb],
    seqOf [.wb, litCI "Requestreocrds", .wb],
    seqOf [.wb, litCI "Requestrecords", .wb],
    seqOf [.wb, litCI "Data", ws1, litCI "Verification", .wb],
    seqOf [.wb, litCI "Lower", ws1, litCI "School", .wb],
    seqOf [.wb, litCI "Verification", .wb],
    seqOf [.wb, litCI "Form", .wb]]

/-- `LABEL_TAIL`: trailing label fragments stripped from a name side
(case-insensitive); the match extends to the end of the string. -/
def LABEL_TAIL : RE :=
  seqOf [ws1,
    altOf [
      litCI "grade", litCI "date", litCI "page", litCI "lower",
      litCI "school", litCI "data", litCI "verification", litCI "form",
      .seq (litCI "admission") (.opt (ci1 's')),
      litCI "administering",
      .seq (litCI "evaluation") (.opt (ci1 's')),
      litCI "eval",
      seqOf [litCI "record", .opt (ci1 's'), litCI "request"],
      litCI "requestreocrds",
      .seq (litCI "recordrelease") (.opt (litCI "authorization")),
      seqOf [litCI "soc", .opt (litCI "ial"), ws0, litCI "sec",
        .opt (litCI "urity"), ws0, litCI "card"],
      litCI "iowa", litCI "english", litCI "math", litCI "medical",
      litCI "physical"],
    .wb, .star (.cls (fun c => c ≠ Char.ofNat 10)), .eos]

/-- `FILENAME_NOISE`: garbage phrases scrubbed from file names before
scanning (case-insensitive). -/
def FILENAME_NOISE : RE :=
  seqOf [.wb,
    altOf [
      seqOf [litCI "All", ws1, litCI "Division", .opt (ci1 's'),
        .opt (lit1 ','), ws0, litCI "DVF"],
      litCI "DVF",
      seqOf [litCI "Admission", .opt (ci1 's'), ws1, litCI "Eval",
        .opt (litCI "uation"), .opt (ci1 's')],
      litCI "Administering",
      seqOf [litCI "Record", .opt (ci1 's'), litCI "request"],
      litCI "Requestreocrds",
      .seq (litCI "Recordrelease") (.opt (litCI "authorization")),
      seqOf [litCI "Soc", .opt (litCI "ial"), ws0, litCI "Sec",
        .opt (litCI "urity"), ws0, litCI "Card"],
      litCI "Iowa", litCI "English", litCI "Math",
      seqOf [litCI "Data", ws1, litCI "Verification"],
      seqOf [litCI "Lower", ws1, litCI "School"],
      seqOf [litCI "Student", ws1, litCI "Name"]],
    .wb]

/-- `ID8`: a folder name that is exactly eight digits. -/
def isID8 (s : String) : Bool := s.length = 8 && s.data.all Char.isDigit

/-! ### Stopwords and allow-lists (all lower-case, as in the source) -/

/-- `STOPWORDS_LOWER`: tokens that can never be part of a name. -/
def STOPWORDS_LOWER : List String := [
  "address", "application", "admissions", "admission", "admin",
  "administrative", "administration",
  "form", "forms", "report", "release", "records", "record", "request",
  "requests", "authorization",
  "agreement", "information", "transcript", "transcripts", "testing",
  "tests", "scores", "interim",
  "interims", "conference", "conferences", "consent", "plan",
  "accommodation", "accomodation",
  "acommodation",
  "health", "immunization", "immunizations", "phys", "phy", "evaluation",
  "evaluations", "eval",
  "schedule", "status", "number", "phone", "comments", "absence",
  "absences", "birth", "certificate",
  "faxed", "documents", "sent", "standardized", "gifted", "psat", "bc",
  "im", "imm", "rc", "pt", "stk",
  "dvf", "division", "divisions", "all", "student",
  "contact", "person", "persons", "guardian", "parent", "emergency",
  "subject", "please",
  "service", "hours", "community", "athletic", "event", "trip",
  "training", "weight", "creative", "writing",
  "science", "government", "history", "chinese", "english", "american",
  "teacher", "pre-ap", "ap", "honors",
  "honor", "roll", "kindergarten", "junior", "sample",
  "school", "lower", "upper", "middle", "oak", "hall", "hall\x27s",
  "tampa", "gainesville", "meridian", "yonge",
  "p.k.", "p.k", "pk", "pk.",
  "street", "st", "avenue", "ave", "road", "rd", "lane", "ln", "court",
  "ct", "drive", "dr", "boulevard", "blvd",
  "suite", "ste", "apt", "sw", "nw", "ne", "se",
  "last", "first", "name", "signature",
  "iowa", "sat", "act", "math", "eng", "physical", "pe",
  "soc", "sec", "card", "social", "security",
  "january", "february", "march", "april", "may", "june", "july",
  "august", "september", "october",
  "november", "december", "jan", "feb", "mar", "apr", "jun", "jul",
  "aug", "sep", "sept", "oct", "nov", "dec",
  "monday", "tuesday", "wednesday", "thursday", "friday", "saturday",
  "sunday",
  "mon", "tue", "tues", "wed", "thu", "thur", "thurs", "fri", "sun",
  "recordsrequest", "recordrequest", "requestrecords", "requestreocrds",
  "recordreleaseauthorization", "recordrelease", "recordsrelease",
  "administering", "administered", "admis", "admis eval", "admiseval",
  "socsec", "socseccard",
  "verification", "data", "medical", "flvs", "lms", "justice", "press",
  "squats", "president",
  "representative", "average", "avg", "score", "test",
  "releaseforrecords"]

/-- `BAD_PAIR_LOWER`: hard-rejected (last, first) pairs. -/
def BAD_PAIR_LOWER : List (String × String) := [
  ("verification", "data"),
  ("school", "lower"),
  ("lower", "school"),
  ("score", "test"),
  ("average", "avg"),
  ("student", "name")]

/-- `SHORT_ALLOW`: legitimate two-letter surnames. -/
def SHORT_ALLOW : List String :=
  ["li", "lu", "xu", "yu", "su", "wu", "ng", "ho", "hu", "ko", "do", "he"]

/-- `SUFFIX_ALLOW`: generational suffixes (already lower-case). -/
def SUFFIX_ALLOW : List String := ["jr", "sr", "ii", "iii", "iv", "v"]

/-! ### Validator -/

/-- `is_stopword_token`: case-insensitive stopword check. -/
def is_stopword_token (tok : String) : Bool :=
  decide (pyLower tok ∈ STOPWORDS_LOWER)

/-- `token_ok`: may this word be part of a real name? -/
def token_ok (tok : String) : Bool :=
  if tok = "" then false
  else if tok.data.any Char.isDigit then false
  else
    let tlo := pyLower tok
    if tlo ∈ STOPWORDS_LOWER then false
    else if tlo.length ≤ 2 ∧ tlo ∉ SHORT_ALLOW ∧ tlo ∉ SUFFIX_ALLOW then false
    else if pyIsUpper tok ∧ tok.length > 3 then false
    else if tlo = "email" ∨ tlo = "e-mail" then false
    else true

/-- `strip_labels`: remove trailing label fragments; blank out a side
that is a lone stopword. -/
def strip_labels (side : String) : String :=
  let side1 := pyStrip side
  if side1 = "" then side1
  else
    let side2 := pyStrip (reSubEmpty LABEL_TAIL side1)
    if is_stopword_token side2 then "" else side2

/-- Replace commas by spaces, as `side.replace(",", " ")`. -/
def replaceCommaSpace (s : String) : String :=
  ⟨s.data.map (fun c => if c = ',' then ' ' else c)⟩

/-- Token normalization inside `clean_name_side`: first character
uppercased, the rest untouched. -/
def capFirst (t : String) : String :=
  match t.data with
  | [] => t
  | c :: rest => ⟨c.toUpper :: rest⟩

/-- The keep-test of `clean_name_side` for one raw token. -/
def keepToken (t : String) : Bool :=
  decide (pyLower (capFirst t) ∈ SUFFIX_ALLOW) || token_ok (capFirst t)

/-- `clean_name_side`: strip labels, keep only name-shaped (or suffix)
tokens, rejoin with single spaces. -/
def clean_name_side (side_text : String) : String :=
  let side := strip_labels side_text
  let toks := pySplit (replaceCommaSpace side)
  " ".intercalate ((toks.filter keepToken).map capFirst)

/-- `looks_like_name`: final test for a (last, first) pair after
cleaning. -/
def looks_like_name (last first : String) : Bool :=
  match decide (clean_name_side last = "" ∨ clean_name_side first = "") with
  | true => false
  | false =>
    match decide ((pyLower (clean_name_side last),
        pyLower (clean_name_side first)) ∈ BAD_PAIR_LOWER) with
    | true => false
    | false =>
      (pySplit (replaceCommaSpace
          (clean_name_side last ++ " " ++ clean_name_side first))).all
        (fun t => token_ok t || decide (pyLower t ∈ SUFFIX_ALLOW))

/-! ### Scorer -/

/-- `score_candidate`: the deterministic trust score. -/
def score_candidate (last first : String) (source : String)
    (dvf_hit had_comma near_anchor : Bool) : Int :=
  let s : Int := 10
  let s := if had_comma then s + 6 else s
  let s := if near_anchor then s + 4 else s
  let s := if source = "filename" then s + 2 else s
  let s := if source = "pdf" then s + 1 else s
  let s := if dvf_hit then s + 12 else s
  let parts := (pySplit (last ++ " " ++ first)).length
  let s := if parts ≤ 3 then s + 1 else s
  let s := if parts ≥ 5 then s - 2 else s
  let s := if last.data.contains ' ' then s - 2 else s
  s

/-- A scored candidate: (last, first, score). -/
abbrev Cand := String × String × Int

/-! ### Filename-based extraction -/

/-- `Path(raw).stem`: the name without its final suffix.  The engine
only ever passes bare file names, so no directory handling is needed. -/
def pathStem (raw : String) : String :=
  let cs := raw.data
  let n := cs.length
  let dots := (List.range n).filter (fun i => cs.getD i ' ' = '.')
  match dots.getLast? with
  | none => raw
  | some i => if 0 < i ∧ i + 1 < n then ⟨cs.take i⟩ else raw

/-- `preclean_filename_text`: remove garbage phrases from a file name
before scanning for names. -/
def preclean_filename_text (raw : String) : String :=
  let base := pathStem raw
  let base := replaceChar '_' ' ' base
  let base := replaceChar '-' ' ' base
  let base := collapse_ws base
  let base := reSubEmpty FILENAME_NOISE base
  collapse_ws base

/-- The (last, first) raw pair a filename match yields; `flip` swaps
the groups (the First Last form). -/
def fnamePair (base : String) (flip : Bool) (m : RMatch) : String × String :=
  match flip with
  | false => (norm_cap (groupStr base.data m 1), norm_cap (groupStr base.data m 2))
  | true => (norm_cap (groupStr base.data m 2), norm_cap (groupStr base.data m 1))

/-- The candidate (if any) one filename match yields. -/
def fnameEmit (base : String) (flip had_comma : Bool) (m : RMatch) :
    Option Cand :=
  match looks_like_name (fnamePair base flip m).1 (fnamePair base flip m).2 with
  | true => some (clean_name_side (fnamePair base flip m).1,
      clean_name_side (fnamePair base flip m).2,
      score_candidate (fnamePair base flip m).1 (fnamePair base flip m).2
        "filename" false had_comma false)
  | false => none

/-- One loop of `candidates_from_filename`: run a pattern over the
precleaned base. -/
def fnameCandsFrom (base : String) (pat : RE) (flip had_comma : Bool) :
    List Cand :=
  (finditerS pat base).filterMap (fnameEmit base flip had_comma)

/-- `candidates_from_filename`: names found in the file name itself. -/
def candidates_from_filename (fname : String) : List Cand :=
  let base := preclean_filename_text fname
  fnameCandsFrom base PAT_COMMA false true
    ++ fnameCandsFrom base PAT_SPACE true false
    ++ fnameCandsFrom base PAT_SEMI false true

/-! ### Document-based extraction -/

/-- `pdf_text`: the text of up to `MAX_PDF_PAGES` pages, normalized.
The PyPDF2 extraction itself is an external collaborator; its already
joined raw output is the model input, and the empty string models an
unreadable document. -/
def pdf_text (rawText : String) : String := collapse_ws rawText

/-- The context window `blob[max(0, start - 80) : stop + 80]` around a
match in a document body. -/
def ctxWindow (full : List Char) (a b : Nat) : String :=
  sliceStr full (a - 80) (b + 80)

/-- The candidate (if any) one declared-name match yields. -/
def dvfEmit (blob : String) (m : RMatch) : Option Cand :=
  match looks_like_name (strip_labels (norm_cap (groupStr blob.data m 1)))
      (strip_labels (norm_cap (groupStr blob.data m 2))) with
  | true => some (clean_name_side (strip_labels (norm_cap (groupStr blob.data m 1))),
      clean_name_side (strip_labels (norm_cap (groupStr blob.data m 2))),
      score_candidate (strip_labels (norm_cap (groupStr blob.data m 1)))
        (strip_labels (norm_cap (groupStr blob.data m 2))) "pdf" true true true)
  | false => none

/-- The declared-name (DVF) loop of `candidates_from_pdf`. -/
def dvfCands (blob : String) : List Cand :=
  (finditerS PAT_DVF blob).filterMap (dvfEmit blob)

/-- The (last, first) raw pair a general document match yields (the
space form, `had_comma = false`, is flipped). -/
def rawPair (blob : String) (had_comma : Bool) (m : RMatch) : String × String :=
  match had_comma with
  | true => (norm_cap (groupStr blob.data m 1), norm_cap (groupStr blob.data m 2))
  | false => (norm_cap (groupStr blob.data m 2), norm_cap (groupStr blob.data m 1))

/-- The candidate (if any) one general document match yields, with the
context-window rejection applied first. -/
def generalEmit (blob : String) (had_comma : Bool) (m : RMatch) :
    Option Cand :=
  match reSearch CONTEXT_REJECT (ctxWindow blob.data m.mstart m.mstop) with
  | true => none
  | false =>
    match (!(clean_name_side (rawPair blob had_comma m).1 == "")
        && !(clean_name_side (rawPair blob had_comma m).2 == "")
        && looks_like_name (clean_name_side (rawPair blob had_comma m).1)
             (clean_name_side (rawPair blob had_comma m).2)) with
    | true => some (clean_name_side (rawPair blob had_comma m).1,
        clean_name_side (rawPair blob had_comma m).2,
        score_candidate (clean_name_side (rawPair blob had_comma m).1)
          (clean_name_side (rawPair blob had_comma m).2) "pdf" false had_comma false)
    | false => none

/-- One general-pattern loop of `candidates_from_pdf`. -/
def generalCandsPat (blob : String) (pat : RE) (had_comma : Bool) :
    List Cand :=
  (finditerS pat blob).filterMap (generalEmit blob had_comma)

/-- The three general-pattern loops of `candidates_from_pdf`, in the
order of the source: comma, semicolon, space form. -/
def generalCands (blob : String) : List Cand :=
  generalCandsPat blob PAT_COMMA true
    ++ generalCandsPat blob PAT_SEMI true
    ++ generalCandsPat blob PAT_SPACE false

/-- `candidates_from_pdf`: names found inside a document, from its
extracted raw text. -/
def candidates_from_pdf (rawText : String) : List Cand :=
  let blob := pdf_text rawText
  if blob = "" then []
  else dvfCands blob ++ generalCands blob

/-! ### Picking the best match (`pick_best`) -/

/-- One step of building the per-key maximum table: Python dict insert
keeping the larger score, preserving first-insertion order. -/
def bestInsert (best : List ((String × String) × Int))
    (key : String × String) (sc : Int) : List ((String × String) × Int) :=
  match best with
  | [] => [(key, sc)]
  | (k, v) :: rest =>
    if k = key then (if sc > v then (key, sc) else (k, v)) :: rest
    else (k, v) :: bestInsert rest key sc

/-- The per-key maximum table over all candidates. -/
def buildBest (cands : List Cand) : List ((String × String) × Int) :=
  cands.foldl (fun b c => bestInsert b (c.1, c.2.1) c.2.2) []

/-- The sort key `(-score, token count, total letter count)`. -/
def sortKey (kv : (String × String) × Int) : Int × Nat × Nat :=
  let last := kv.1.1
  let first := kv.1.2
  (-kv.2, (pySplit (last ++ " " ++ first)).length,
    (last.data.filter (fun c => c ≠ ' ')).length
      + (first.data.filter (fun c => c ≠ ' ')).length)

/-- Strict lexicographic comparison of sort keys. -/
def keyLt (a b : Int × Nat × Nat) : Bool :=
  a.1 < b.1 ∨ (a.1 = b.1 ∧ (a.2.1 < b.2.1 ∨ (a.2.1 = b.2.1 ∧ a.2.2 < b.2.2)))

/-- First minimal element under `keyLt` (ties keep the earlier entry),
matching a stable sort followed by taking the head. -/
def pickMinAux (cur : (String × String) × Int) :
    List ((String × String) × Int) → (String × String) × Int
  | [] => cur
  | x :: rest =>
    if keyLt (sortKey x) (sortKey cur) then pickMinAux x rest
    else pickMinAux cur rest

/-- `pick_best`: reduce many candidates to one winner (or none). -/
def pick_best (cands : List Cand) : Option (String × String) :=
  match buildBest cands with
  | [] => none
  | b :: rest => some (pickMinAux b rest).1

/-! ### Aggregator (`derive_name_for_folder`) -/

/-- One file inside a folder: its name, whether it is a regular file,
and the raw text an extractor would produce for it. -/
structure FileEntry : Type where
  name : String
  isFile : Bool
  text : String
deriving Repr, DecidableEq

/-- `Path(name).suffix` for a bare file name. -/
def pySuffix (name : String) : String :=
  let cs := name.data
  let n := cs.length
  let dots := (List.range n).filter (fun i => cs.getD i ' ' = '.')
  match dots.getLast? with
  | none => ""
  | some i => if 0 < i ∧ i + 1 < n then ⟨cs.drop i⟩ else ""

/-- Does the folder's document tier consider this file (a PDF)? -/
def isPdfFile (f : FileEntry) : Bool :=
  f.isFile && pyLower (pySuffix f.name) = ".pdf"

/-- `derive_name_for_folder`, instrumented with the list of files whose
bodies were read: the two-tier search.  Tier 1 uses file names only;
tier 2 (entered only when tier 1 decides nothing) opens document
bodies. -/
def derive_name_traced (files : List FileEntry) :
    Option (String × String) × List String :=
  match pick_best ((files.filter (fun f => f.isFile)).flatMap
      (fun f => candidates_from_filename f.name)) with
  | some w => (some w, [])
  | none =>
    (pick_best ((files.filter isPdfFile).flatMap
        (fun f => candidates_from_pdf f.text)),
      (files.filter isPdfFile).map (fun f => f.name))

/-- `derive_name_for_folder`: the winner for one folder, or none. -/
def derive_name_for_folder (files : List FileEntry) :
    Option (String × String) :=
  (derive_name_traced files).1

/-! ### Rename executor (`safe_rename`) and main loop -/

/-- Outcome of one `folder.rename` attempt: success, a transient
permission/lock failure (`PermissionError`), or any other `OSError`. -/
inductive RenameOutcome : Type where
  | ok : RenameOutcome
  | permDenied : RenameOutcome
  | otherErr : RenameOutcome
deriving Repr, DecidableEq

/-- One report line of the engine. -/
inductive Report : Type where
  | same : String → Report
  | dry : String → String → Report
  | renamed : String → String → Report
  | failOther : String → String → Report
  | failRetries : String → String → Report
  | skip : String → Report
deriving Repr, DecidableEq

/-- Result of `safe_rename`: the report line, the folder's name after
the call (set only when an actual rename happened), the destination it
computed, and how many rename attempts and sleeps it performed. -/
structure RenameResult : Type where
  report : Report
  newName : Option String
  dest : String
  attempts : Nat
  sleeps : Nat
deriving Repr, DecidableEq

/-- `RENAMING_RETRIES` of the source. -/
def RENAMING_RETRIES : Nat := 5

/-- Decimal rendering with fuel (`fuel > n` always suffices since a
number has no more digits than its own value). -/
def pyStrAux : Nat → Nat → List Char
  | 0, _ => []
  | fuel + 1, n =>
    if n < 10 then [Char.ofNat (48 + n)]
    else pyStrAux fuel (n / 10) ++ [Char.ofNat (48 + n % 10)]

/-- Decimal rendering of a natural number, as Python `str(i)`. -/
def pyStr (n : Nat) : List Char := pyStrAux (n + 1) n

/-- The collision-avoiding name `f"{base} ({i})"`. -/
def suffixName (base : String) (i : Nat) : String :=
  base ++ " (" ++ (⟨pyStr i⟩ : String) ++ ")"

/-- The `while ... exists()` search for the first free suffix, with a
fuel bound; `existing.length + 1` candidates always contain a free one
(pigeonhole), so the fuel never runs out when used via `firstFree`. -/
def firstFreeAux (existing : List String) (base : String) :
    Nat → Nat → Nat
  | i, 0 => i
  | i, fuel + 1 =>
    if suffixName base i ∈ existing then firstFreeAux existing base (i + 1) fuel
    else i

/-- First `i ≥ 1` with `f"{base} ({i})"` not an existing entry. -/
def firstFree (existing : List String) (base : String) : Nat :=
  firstFreeAux existing base 1 (existing.length + 1)

/-- The retry loop of `safe_rename` in committing mode: `oracle j` is
the outcome of the `j`-th rename attempt (0-based). Returns the report,
the new name on success, the number of attempts, and the number of
sleeps. -/
def attemptLoop (folderName target : String)
    (oracle : Nat → RenameOutcome) :
    Nat → Nat → Nat → Report × Option String × Nat × Nat
  | attempts, sleeps, 0 => (.failRetries folderName target, none, attempts, sleeps)
  | attempts, sleeps, fuel + 1 =>
    match oracle attempts with
    | .ok => (.renamed folderName target, some target, attempts + 1, sleeps)
    | .permDenied => attemptLoop folderName target oracle (attempts + 1) (sleeps + 1) fuel
    | .otherErr => (.failOther folderName target, none, attempts + 1, sleeps)

/-- `safe_rename`: no-op when already correct, collision-suffixed
destination, preview mode, and the bounded retry loop. -/
def safe_rename (dryRun : Bool) (existing : List String)
    (folderName newBase : String) (oracle : Nat → RenameOutcome) :
    RenameResult :=
  if newBase = folderName then ⟨.same folderName, none, newBase, 0, 0⟩
  else
    let target :=
      if newBase ∈ existing then suffixName newBase (firstFree existing newBase)
      else newBase
    if dryRun then ⟨.dry folderName target, none, target, 0, 0⟩
    else
      let r := attemptLoop folderName target oracle 0 0 RENAMING_RETRIES
      ⟨r.1, r.2.1, target, r.2.2.1, r.2.2.2⟩

/-- One directory under `ROOT`: its current name and its files. -/
structure Entry : Type where
  name : String
  files : List FileEntry
deriving Repr, DecidableEq

/-- `target_name`: the final folder name `"12345678 - Last, First"`. -/
def target_name (id8 : String) (lastFirst : String × String) : String :=
  id8 ++ " - " ++ lastFirst.1 ++ ", " ++ lastFirst.2

/-- The loop of `main` over the snapshot of `ROOT`'s children:
`doneNames` are the current names of already-processed entries (used by
the existence checks), the oracle gives each folder its rename-attempt
outcomes.  Returns the report lines and the final directory entries. -/
def mainLoop (dryRun : Bool) (oracle : String → Nat → RenameOutcome) :
    List String → List Entry → List Report × List Entry
  | _, [] => ([], [])
  | doneNames, e :: rest =>
    if isID8 e.name then
      match derive_name_for_folder e.files with
      | some best =>
        let existing := doneNames ++ e.name :: rest.map (fun x => x.name)
        let res := safe_rename dryRun existing e.name (target_name e.name best)
          (oracle e.name)
        let newN := res.newName.getD e.name
        let r := mainLoop dryRun oracle (doneNames ++ [newN]) rest
        (res.report :: r.1, ⟨newN, e.files⟩ :: r.2)
      | none =>
        let r := mainLoop dryRun oracle (doneNames ++ [e.name]) rest
        (.skip e.name :: r.1, e :: r.2)
    else
      let r := mainLoop dryRun oracle (doneNames ++ [e.name]) rest
      (r.1, e :: r.2)

/-- `main`: process every child of `ROOT`. -/
def runEngine (dryRun : Bool) (oracle : String → Nat → RenameOutcome)
    (fs : List Entry) : List Report × List Entry :=
  mainLoop dryRun oracle [] fs

/-- The oracle of a run in which every rename succeeds at once. -/
def okOracle : String → Nat → RenameOutcome := fun _ _ => .ok

/-! ### Predicates used by the statements -/

/-- The token filter, with the generational-suffix allowance. -/
def passesFilter (t : String) : Bool :=
  token_ok t || decide (pyLower t ∈ SUFFIX_ALLOW)

/-- A candidate is valid: both sides non-empty, the lowercased pair not
banned, and every token of either side name-shaped or a suffix. -/
def validCand (c : Cand) : Prop :=
  c.1 ≠ "" ∧ c.2.1 ≠ "" ∧ (pyLower c.1, pyLower c.2.1) ∉ BAD_PAIR_LOWER ∧
    ∀ t ∈ pySplit c.1 ++ pySplit c.2.1, passesFilter t = true

/-- The character-replacement stage of `collapse_ws` (non-breaking
space and the four dash variants the source handles). -/
def dashNorm (s : String) : String :=
  replaceChar (Char.ofNat 8212) '-' (replaceChar (Char.ofNat 8211) '-'
    (replaceChar (Char.ofNat 8209) '-' (replaceChar (Char.ofNat 8208) '-'
      (replaceChar (Char.ofNat 160) ' ' s))))

/-- Decimal value of a digit string, a left inverse of `pyStr` used to
show distinct suffix indices give distinct names. -/
def strVal (l : List Char) : Nat := l.foldl (fun a c => 10 * a + (c.toNat - 48)) 0

/-- Right-strip of trailing whitespace; `pyStripList` is this composed
with a left `dropWhile`. -/
def rstripWs (l : List Char) : List Char := (l.reverse.dropWhile pyIsSpace).reverse

/-! ## Theorems -/

set_option maxHeartbeats 1000000 in
/-- C5: the trust score is exactly 10, plus 6 for a separator form,
plus 4 near an anchor, plus 2 for a filename source, plus 1 for a
document source, plus 12 for a declared-name hit, plus 1 when the total
token count is at most 3, minus 2 when it is at least 5, minus 2 when
the last-name side contains an internal space. -/
theorem claim5_score_formula (last first source : String)
    (dvf_hit had_comma near_anchor : Bool) :
    score_candidate last first source dvf_hit had_comma near_anchor =
      10 + (if had_comma then 6 else 0) + (if near_anchor then 4 else 0)
        + (if source = "filename" then 2 else 0)
        + (if source = "pdf" then 1 else 0)
        + (if dvf_hit then 12 else 0)
        + (if (pySplit (last ++ " " ++ first)).length ≤ 3 then 1 else 0)
        - (if (pySplit (last ++ " " ++ first)).length ≥ 5 then 2 else 0)
        - (if last.data.contains ' ' then 2 else 0) := by
  dsimp only [score_candidate]
  split_ifs <;> omega

/-! ### Facts about `pick_best` -/

theorem bestInsert_ne_nil (b : List ((String × String) × Int))
    (key : String × String) (sc : Int) : bestInsert b key sc ≠ [] := by
  cases b with
  | nil => simp [bestInsert]
  | cons x rest =>
    obtain ⟨k, v⟩ := x
    simp only [bestInsert]
    split <;> simp

theorem bestInsert_mem (b : List ((String × String) × Int))
    (key : String × String) (sc : Int) (x : (String × String) × Int) :
    x ∈ bestInsert b key sc → x ∈ b ∨ x = (key, sc) := by
  induction b with
  | nil => intro hx; simp [bestInsert] at hx; simp [hx]
  | cons y rest ih =>
    intro hx
    obtain ⟨k, v⟩ := y
    simp only [bestInsert] at hx
    by_cases hk : k = key
    · rw [if_pos hk] at hx
      by_cases hs : sc > v
      · rw [if_pos hs] at hx
        rcases List.mem_cons.mp hx with h | h
        · right; exact h
        · left; exact List.mem_cons_of_mem _ h
      · rw [if_neg hs] at hx
        rcases List.mem_cons.mp hx with h | h
        · left; rw [h]; exact List.mem_cons_self _ _
        · left; exact List.mem_cons_of_mem _ h
    · rw [if_neg hk] at hx
      rcases List.mem_cons.mp hx with h | h
      · left; rw [h]; exact List.mem_cons_self _ _
      · rcases ih h with h' | h'
        · left; exact List.mem_cons_of_mem _ h'
        · right; exact h'

theorem bestInsert_ge (b : List ((String × String) × Int))
    (key : String × String) (sc : Int) (k : String × String) (v : Int) :
    (k, v) ∈ b → ∃ v', (k, v') ∈ bestInsert b key sc ∧ v ≤ v' := by
  induction b with
  | nil => intro hkv; simp at hkv
  | cons y rest ih =>
    intro hkv
    obtain ⟨k0, v0⟩ := y
    rcases List.mem_cons.mp hkv with h | h
    · injection h with h1 h2
      subst h1; subst h2
      simp only [bestInsert]
      by_cases hk : k = key
      · subst hk
        rw [if_pos rfl]
        by_cases hs : sc > v
        · rw [if_pos hs]
          exact ⟨sc, List.mem_cons_self _ _, by omega⟩
        · rw [if_neg hs]
          exact ⟨v, List.mem_cons_self _ _, le_refl _⟩
      · rw [if_neg hk]
        exact ⟨v, List.mem_cons_self _ _, le_refl _⟩
    · simp only [bestInsert]
      by_cases hk : k0 = key
      · rw [if_pos hk]
        by_cases hs : sc > v0
        · rw [if_pos hs]
          exact ⟨v, List.mem_cons_of_mem _ h, le_refl _⟩
        · rw [if_neg hs]
          exact ⟨v, List.mem_cons_of_mem _ h, le_refl _⟩
      · rw [if_neg hk]
        obtain ⟨v', hv1, hv2⟩ := ih h
        exact ⟨v', List.mem_cons_of_mem _ hv1, hv2⟩

theorem bestInsert_self (b : List ((String × String) × Int))
    (key : String × String) (sc : Int) :
    ∃ v', (key, v') ∈ bestInsert b key sc ∧ sc ≤ v' := by
  induction b with
  | nil => exact ⟨sc, by simp [bestInsert], le_refl _⟩
  | cons y rest ih =>
    obtain ⟨k0, v0⟩ := y
    simp only [bestInsert]
    by_cases hk : k0 = key
    · rw [if_pos hk]
      by_cases hs : sc > v0
      · rw [if_pos hs]; exact ⟨sc, List.mem_cons_self _ _, le_refl _⟩
      · rw [if_neg hs]
        refine ⟨v0, ?_, by omega⟩
        rw [hk]
        exact List.mem_cons_self _ _
    · rw [if_neg hk]
      obtain ⟨v', hv1, hv2⟩ := ih
      exact ⟨v', List.mem_cons_of_mem _ hv1, hv2⟩

theorem buildBest_aux_mem (cands : List Cand) :
    ∀ acc x, x ∈ cands.foldl (fun b c => bestInsert b (c.1, c.2.1) c.2.2) acc →
      x ∈ acc ∨ ∃ c ∈ cands, x = ((c.1, c.2.1), c.2.2) := by
  induction cands with
  | nil => intro acc x hx; exact Or.inl hx
  | cons c rest ih =>
    intro acc x hx
    simp only [List.foldl_cons] at hx
    rcases ih _ x hx with h | ⟨c', hc', he⟩
    · rcases bestInsert_mem _ _ _ _ h with h' | h'
      · exact Or.inl h'
      · exact Or.inr ⟨c, List.mem_cons_self _ _, h'⟩
    · exact Or.inr ⟨c', List.mem_cons_of_mem _ hc', he⟩

theorem buildBest_mem (cands : List Cand) (x : (String × String) × Int)
    (hx : x ∈ buildBest cands) : ∃ c ∈ cands, x = ((c.1, c.2.1), c.2.2) := by
  rcases buildBest_aux_mem cands [] x hx with h | h
  · simp at h
  · exact h

theorem buildBest_aux_preserve (cands : List Cand) :
    ∀ acc (k : String × String) (v : Int), (k, v) ∈ acc →
      ∃ v', (k, v') ∈ cands.foldl (fun b c => bestInsert b (c.1, c.2.1) c.2.2) acc ∧
        v ≤ v' := by
  induction cands with
  | nil => intro acc k v h; exact ⟨v, h, le_refl _⟩
  | cons c rest ih =>
    intro acc k v h
    obtain ⟨v1, h1, h2⟩ := bestInsert_ge acc (c.1, c.2.1) c.2.2 k v h
    obtain ⟨v', h3, h4⟩ := ih _ k v1 h1
    exact ⟨v', h3, le_trans h2 h4⟩

theorem buildBest_aux_attain (cands : List Cand) :
    ∀ acc c, c ∈ cands →
      ∃ v, ((c.1, c.2.1), v) ∈ cands.foldl (fun b c => bestInsert b (c.1, c.2.1) c.2.2) acc ∧
        c.2.2 ≤ v := by
  induction cands with
  | nil => intro acc c h; cases h
  | cons c0 rest ih =>
    intro acc c h
    simp only [List.foldl_cons]
    rcases List.mem_cons.mp h with h | h
    · subst h
      obtain ⟨v1, h1, h2⟩ := bestInsert_self acc (c.1, c.2.1) c.2.2
      obtain ⟨v', h3, h4⟩ := buildBest_aux_preserve rest _ _ _ h1
      exact ⟨v', h3, le_trans h2 h4⟩
    · exact ih _ c h

theorem buildBest_ge (cands : List Cand) (c : Cand) (hc : c ∈ cands) :
    ∃ v, ((c.1, c.2.1), v) ∈ buildBest cands ∧ c.2.2 ≤ v :=
  buildBest_aux_attain cands [] c hc

theorem foldl_bestInsert_ne_nil (cands : List Cand) :
    ∀ acc, acc ≠ [] →
      cands.foldl (fun b c => bestInsert b (c.1, c.2.1) c.2.2) acc ≠ [] := by
  induction cands with
  | nil => intro acc h; exact h
  | cons c rest ih =>
    intro acc _
    simp only [List.foldl_cons]
    exact ih _ (bestInsert_ne_nil _ _ _)

theorem buildBest_ne_nil (cands : List Cand) (h : cands ≠ []) :
    buildBest cands ≠ [] := by
  cases cands with
  | nil => exact absurd rfl h
  | cons c rest =>
    unfold buildBest
    simp only [List.foldl_cons]
    exact foldl_bestInsert_ne_nil rest _ (bestInsert_ne_nil _ _ _)

theorem keyLt_true_sc {a b : (String × String) × Int}
    (h : keyLt (sortKey a) (sortKey b) = true) : b.2 ≤ a.2 := by
  simp only [keyLt, sortKey, decide_eq_true_eq] at h
  rcases h with h | ⟨h, _⟩ <;> omega

theorem keyLt_false_sc {a b : (String × String) × Int}
    (h : keyLt (sortKey a) (sortKey b) = false) : a.2 ≤ b.2 := by
  simp only [keyLt, sortKey, decide_eq_false_iff_not] at h
  push_neg at h
  omega

theorem pickMinAux_mem (l : List ((String × String) × Int)) :
    ∀ cur, pickMinAux cur l ∈ cur :: l := by
  induction l with
  | nil => intro cur; simp [pickMinAux]
  | cons x rest ih =>
    intro cur
    simp only [pickMinAux]
    by_cases hlt : keyLt (sortKey x) (sortKey cur)
    · rw [if_pos hlt]
      exact List.mem_cons_of_mem _ (ih x)
    · rw [if_neg hlt]
      rcases List.mem_cons.mp (ih cur) with h | h
      · rw [h]; exact List.mem_cons_self _ _
      · exact List.mem_cons_of_mem _ (List.mem_cons_of_mem _ h)

theorem pickMinAux_sc (l : List ((String × String) × Int)) :
    ∀ cur x, x ∈ cur :: l → x.2 ≤ (pickMinAux cur l).2 := by
  induction l with
  | nil =>
    intro cur x hx
    simp only [List.mem_singleton] at hx
    rw [hx]
    exact le_refl _
  | cons y rest ih =>
    intro cur x hx
    simp only [pickMinAux]
    rcases List.mem_cons.mp hx with h | h
    · subst h
      by_cases hlt : keyLt (sortKey y) (sortKey x)
      · rw [if_pos hlt]
        exact le_trans (keyLt_true_sc hlt)
          (ih y y (List.mem_cons_self _ _))
      · rw [if_neg hlt]
        exact ih x x (List.mem_cons_self _ _)
    · rcases List.mem_cons.mp h with h' | h'
      · subst h'
        by_cases hlt : keyLt (sortKey x) (sortKey cur)
        · rw [if_pos hlt]
          exact ih x x (List.mem_cons_self _ _)
        · rw [if_neg hlt]
          exact le_trans (keyLt_false_sc (Bool.of_not_eq_true hlt))
            (ih cur cur (List.mem_cons_self _ _))
      · by_cases hlt : keyLt (sortKey y) (sortKey cur)
        · rw [if_pos hlt]
          exact ih y x (List.mem_cons_of_mem _ h')
        · rw [if_neg hlt]
          exact ih cur x (List.mem_cons_of_mem _ h')

theorem pick_best_achieves_max (cands : List Cand) (w : String × String)
    (h : pick_best cands = some w) :
    ∃ c ∈ cands, (c.1, c.2.1) = w ∧ ∀ c' ∈ cands, c'.2.2 ≤ c.2.2 := by
  unfold pick_best at h
  rcases hb : buildBest cands with _ | ⟨b, rest⟩
  · rw [hb] at h; cases h
  · rw [hb] at h
    have hw : (pickMinAux b rest).1 = w := by
      injection h
    have hmem : pickMinAux b rest ∈ buildBest cands := by
      rw [hb]; exact pickMinAux_mem rest b
    obtain ⟨c, hc, hce⟩ := buildBest_mem cands _ hmem
    refine ⟨c, hc, ?_, ?_⟩
    · rw [← hw, hce]
    · intro c' hc'
      obtain ⟨v, hv1, hv2⟩ := buildBest_ge cands c' hc'
      rw [hb] at hv1
      have hle : ((c'.1, c'.2.1), v).2 ≤ (pickMinAux b rest).2 :=
        pickMinAux_sc rest b _ hv1
      have : (pickMinAux b rest).2 = c.2.2 := by rw [hce]
      simp only [this] at hle
      omega

theorem pick_best_some (cands : List Cand) (h : cands ≠ []) :
    ∃ w, pick_best cands = some w := by
  unfold pick_best
  rcases hb : buildBest cands with _ | ⟨b, rest⟩
  · exact absurd hb (buildBest_ne_nil cands h)
  · exact ⟨(pickMinAux b rest).1, rfl⟩

/-! ### Score bounds for the two kinds of document candidates -/

theorem dvf_score_lb (l f : String) :
    29 ≤ score_candidate l f "pdf" true true true := by
  dsimp only [score_candidate]
  rw [if_neg (by decide : ¬("pdf" : String) = "filename"),
    if_pos (rfl : ("pdf" : String) = "pdf")]
  split_ifs <;> first | omega | simp_all

theorem general_pdf_score_ub (l f : String) (hc : Bool) :
    score_candidate l f "pdf" false hc false ≤ 18 := by
  dsimp only [score_candidate]
  rw [if_neg (by decide : ¬("pdf" : String) = "filename")]
  split_ifs <;> first | omega | simp_all

/-! ### Shapes of the candidates emitted by `candidates_from_pdf` -/

theorem candidates_from_pdf_eq (t : String) :
    candidates_from_pdf t = dvfCands (pdf_text t) ++ generalCands (pdf_text t) := by
  dsimp only [candidates_from_pdf]
  split
  · next h => rw [h]; rfl
  · rfl

theorem dvfEmit_shape (blob : String) (m : RMatch) (c : Cand)
    (he : dvfEmit blob m = some c) :
    ∃ l f, c = (clean_name_side l, clean_name_side f,
      score_candidate l f "pdf" true true true) := by
  unfold dvfEmit at he
  split at he
  · injection he with h
    exact ⟨_, _, h.symm⟩
  · cases he

theorem dvfCands_score (blob : String) (c : Cand) (hc : c ∈ dvfCands blob) :
    ∃ l f, c = (clean_name_side l, clean_name_side f,
      score_candidate l f "pdf" true true true) := by
  unfold dvfCands at hc
  rw [List.mem_filterMap] at hc
  obtain ⟨m, _, he⟩ := hc
  exact dvfEmit_shape blob m c he

theorem generalEmit_shape (blob : String) (hcb : Bool) (m : RMatch)
    (c : Cand) (he : generalEmit blob hcb m = some c) :
    ∃ l f, c = (l, f, score_candidate l f "pdf" false hcb false) := by
  unfold generalEmit at he
  split at he
  · cases he
  · split at he
    · injection he with h
      exact ⟨_, _, h.symm⟩
    · cases he

theorem generalCandsPat_score (blob : String) (pat : RE) (hcb : Bool)
    (c : Cand) (hc : c ∈ generalCandsPat blob pat hcb) :
    ∃ l f, c = (l, f, score_candidate l f "pdf" false hcb false) := by
  unfold generalCandsPat at hc
  rw [List.mem_filterMap] at hc
  obtain ⟨m, _, he⟩ := hc
  exact generalEmit_shape blob hcb m c he

theorem generalCands_score (blob : String) (c : Cand)
    (hc : c ∈ generalCands blob) :
    ∃ l f hcb, c = (l, f, score_candidate l f "pdf" false hcb false) := by
  unfold generalCands at hc
  rcases List.mem_append.mp hc with h | h
  · rcases List.mem_append.mp h with h' | h'
    · obtain ⟨l, f, he⟩ := generalCandsPat_score _ _ _ _ h'
      exact ⟨l, f, true, he⟩
    · obtain ⟨l, f, he⟩ := generalCandsPat_score _ _ _ _ h'
      exact ⟨l, f, true, he⟩
  · obtain ⟨l, f, he⟩ := generalCandsPat_score _ _ _ _ h
    exact ⟨l, f, false, he⟩

theorem dvfCands_score_lb (blob : String) (c : Cand) (hc : c ∈ dvfCands blob) :
    29 ≤ c.2.2 := by
  obtain ⟨l, f, he⟩ := dvfCands_score blob c hc
  rw [he]
  exact dvf_score_lb l f

theorem generalCands_score_ub (blob : String) (c : Cand)
    (hc : c ∈ generalCands blob) : c.2.2 ≤ 18 := by
  obtain ⟨l, f, hcb, he⟩ := generalCands_score blob c hc
  rw [he]
  exact general_pdf_score_ub l f hcb

/-! ### The two tiers of `derive_name_for_folder` -/

theorem derive_fname_tier (files : List FileEntry) (w : String × String)
    (h : pick_best ((files.filter (fun f => f.isFile)).flatMap
      (fun f => candidates_from_filename f.name)) = some w) :
    derive_name_traced files = (some w, []) := by
  unfold derive_name_traced
  rw [h]

theorem derive_pdf_tier (files : List FileEntry)
    (h : pick_best ((files.filter (fun f => f.isFile)).flatMap
      (fun f => candidates_from_filename f.name)) = none) :
    derive_name_traced files =
      (pick_best ((files.filter isPdfFile).flatMap
        (fun f => candidates_from_pdf f.text)),
       (files.filter isPdfFile).map (fun f => f.name)) := by
  unfold derive_name_traced
  rw [h]

/-- C1: for a folder whose filename tier yields no candidate and whose
documents yield at least one declared-name candidate, every
declared-name candidate strictly outscores every general-pattern
candidate, and the aggregator's winner is a pair emitted by the
declared-name rule. -/
theorem claim1_declared_name_precedence (files : List FileEntry)
    (h1 : (files.filter (fun f => f.isFile)).flatMap
      (fun f => candidates_from_filename f.name) = [])
    (h2 : ∃ f ∈ files.filter isPdfFile, dvfCands (pdf_text f.text) ≠ []) :
    (∀ f ∈ files.filter isPdfFile, ∀ c ∈ dvfCands (pdf_text f.text),
      ∀ f' ∈ files.filter isPdfFile, ∀ c' ∈ generalCands (pdf_text f'.text),
        c'.2.2 < c.2.2) ∧
    ∃ w, derive_name_for_folder files = some w ∧
      ∃ f ∈ files.filter isPdfFile, ∃ sc : Int,
        (w.1, w.2, sc) ∈ dvfCands (pdf_text f.text) := by
  constructor
  · intro f _ c hcm f' _ c' hc'
    have h3 := dvfCands_score_lb _ c hcm
    have h4 := generalCands_score_ub _ c' hc'
    omega
  · have hnone : pick_best ((files.filter (fun f => f.isFile)).flatMap
        (fun f => candidates_from_filename f.name)) = none := by
      rw [h1]; rfl
    have hder : derive_name_for_folder files =
        pick_best ((files.filter isPdfFile).flatMap
          (fun f => candidates_from_pdf f.text)) := by
      unfold derive_name_for_folder
      rw [derive_pdf_tier files hnone]
    obtain ⟨f0, hf0, hne0⟩ := h2
    obtain ⟨c0, hc0⟩ := List.exists_mem_of_ne_nil _ hne0
    have hc0' : c0 ∈ candidates_from_pdf f0.text := by
      rw [candidates_from_pdf_eq]
      exact List.mem_append_left _ hc0
    have hmem0 : c0 ∈ (files.filter isPdfFile).flatMap
        (fun f => candidates_from_pdf f.text) :=
      List.mem_flatMap.mpr ⟨f0, hf0, hc0'⟩
    obtain ⟨w, hw⟩ := pick_best_some _ (List.ne_nil_of_mem hmem0)
    obtain ⟨cmax, hcmax, hkey, hdom⟩ := pick_best_achieves_max _ w hw
    obtain ⟨fm, hfm, hcm⟩ := List.mem_flatMap.mp hcmax
    rw [candidates_from_pdf_eq] at hcm
    rcases List.mem_append.mp hcm with hin | hin
    · refine ⟨w, by rw [hder]; exact hw, fm, hfm, cmax.2.2, ?_⟩
      rw [← hkey]
      simpa using hin
    · exfalso
      have hub := generalCands_score_ub _ cmax hin
      have hlb := dvfCands_score_lb _ c0 hc0
      have := hdom c0 hmem0
      omega

set_option maxRecDepth 100000 in
/-- Witness for C1: a folder with one PDF named `scan.pdf` whose text
declares `Student Name: Abdulraheem, Hanan Grade: 7`. -/
theorem claim1_witness :
    ((([⟨"scan.pdf", true, "Student Name: Abdulraheem, Hanan Grade: 7"⟩] :
        List FileEntry).filter (fun f => f.isFile)).flatMap
      (fun f => candidates_from_filename f.name) = []) ∧
    (∃ f ∈ ([⟨"scan.pdf", true, "Student Name: Abdulraheem, Hanan Grade: 7"⟩] :
        List FileEntry).filter isPdfFile, dvfCands (pdf_text f.text) ≠ []) ∧
    ((∀ f ∈ ([⟨"scan.pdf", true, "Student Name: Abdulraheem, Hanan Grade: 7"⟩] :
        List FileEntry).filter isPdfFile, ∀ c ∈ dvfCands (pdf_text f.text),
      ∀ f' ∈ ([⟨"scan.pdf", true, "Student Name: Abdulraheem, Hanan Grade: 7"⟩] :
        List FileEntry).filter isPdfFile, ∀ c' ∈ generalCands (pdf_text f'.text),
        c'.2.2 < c.2.2) ∧
    ∃ w, derive_name_for_folder
        [⟨"scan.pdf", true, "Student Name: Abdulraheem, Hanan Grade: 7"⟩] = some w ∧
      ∃ f ∈ ([⟨"scan.pdf", true, "Student Name: Abdulraheem, Hanan Grade: 7"⟩] :
        List FileEntry).filter isPdfFile, ∃ sc : Int,
        (w.1, w.2, sc) ∈ dvfCands (pdf_text f.text)) :=
  ⟨by decide, by decide,
    claim1_declared_name_precedence _ (by decide) (by decide)⟩

/-! ### C2: the filename tier short-circuits -/

theorem fnameCands_shape_eq (files : List FileEntry) :
    ∀ files' : List FileEntry,
      files.map (fun f => (f.name, f.isFile)) =
        files'.map (fun f => (f.name, f.isFile)) →
      (files.filter (fun f => f.isFile)).flatMap
          (fun f => candidates_from_filename f.name) =
        (files'.filter (fun f => f.isFile)).flatMap
          (fun f => candidates_from_filename f.name) := by
  induction files with
  | nil =>
    intro files' h
    cases files' with
    | nil => rfl
    | cons f' rest' => simp at h
  | cons f rest ih =>
    intro files' h
    cases files' with
    | nil => simp at h
    | cons f' rest' =>
      simp only [List.map_cons, List.cons.injEq] at h
      obtain ⟨hp, hrest⟩ := h
      rw [Prod.mk.injEq] at hp
      obtain ⟨hn, hf⟩ := hp
      by_cases hb : f.isFile
      · rw [List.filter_cons_of_pos hb,
          List.filter_cons_of_pos (by rw [← hf]; exact hb)]
        simp only [List.flatMap_cons]
        rw [hn, ih rest' hrest]
      · rw [List.filter_cons_of_neg hb,
          List.filter_cons_of_neg (by rw [← hf]; exact hb)]
        exact ih rest' hrest

/-- C2: when the file names of a folder yield at least one candidate,
the outcome is decided by the filename tier alone: no document body is
read, the winner is the filename-tier winner, and any folder with the
same file names and file flags but different document contents yields
the identical winner. -/
theorem claim2_filename_short_circuit (files files' : List FileEntry)
    (h1 : (files.filter (fun f => f.isFile)).flatMap
      (fun f => candidates_from_filename f.name) ≠ [])
    (hshape : files.map (fun f => (f.name, f.isFile)) =
      files'.map (fun f => (f.name, f.isFile))) :
    (derive_name_traced files).2 = [] ∧
    derive_name_for_folder files =
      pick_best ((files.filter (fun f => f.isFile)).flatMap
        (fun f => candidates_from_filename f.name)) ∧
    derive_name_for_folder files' = derive_name_for_folder files := by
  obtain ⟨w, hw⟩ := pick_best_some _ h1
  have hw' : pick_best ((files'.filter (fun f => f.isFile)).flatMap
      (fun f => candidates_from_filename f.name)) = some w := by
    rw [← fnameCands_shape_eq files files' hshape]
    exact hw
  refine ⟨?_, ?_, ?_⟩
  · rw [derive_fname_tier files w hw]
  · unfold derive_name_for_folder
    rw [derive_fname_tier files w hw, hw]
  · unfold derive_name_for_folder
    rw [derive_fname_tier files w hw, derive_fname_tier files' w hw']

set_option maxRecDepth 100000 in
/-- Witness for C2: one folder holding `Wynn, Hannah.pdf`, the other
the same file name with different document text. -/
theorem claim2_witness :
    ((([⟨"Wynn, Hannah.pdf", true, "text one"⟩] :
        List FileEntry).filter (fun f => f.isFile)).flatMap
      (fun f => candidates_from_filename f.name) ≠ []) ∧
    (([⟨"Wynn, Hannah.pdf", true, "text one"⟩] :
        List FileEntry).map (fun f => (f.name, f.isFile)) =
      ([⟨"Wynn, Hannah.pdf", true, "another text"⟩] :
        List FileEntry).map (fun f => (f.name, f.isFile))) ∧
    ((derive_name_traced [⟨"Wynn, Hannah.pdf", true, "text one"⟩]).2 = [] ∧
    derive_name_for_folder [⟨"Wynn, Hannah.pdf", true, "text one"⟩] =
      pick_best ((([⟨"Wynn, Hannah.pdf", true, "text one"⟩] :
          List FileEntry).filter (fun f => f.isFile)).flatMap
        (fun f => candidates_from_filename f.name)) ∧
    derive_name_for_folder [⟨"Wynn, Hannah.pdf", true, "another text"⟩] =
      derive_name_for_folder [⟨"Wynn, Hannah.pdf", true, "text one"⟩]) :=
  ⟨by decide, by decide,
    claim2_filename_short_circuit _ _ (by decide) (by decide)⟩

/-! ### C4: collision avoidance never overwrites -/

theorem digitChar_toNat (d : Nat) (h : d < 10) :
    (Char.ofNat (48 + d)).toNat = 48 + d := by
  interval_cases d <;> decide

theorem strVal_append_digit (l : List Char) (c : Char) :
    strVal (l ++ [c]) = 10 * strVal l + (c.toNat - 48) := by
  simp [strVal, List.foldl_append]

theorem pyStrAux_val : ∀ fuel n, n < fuel → strVal (pyStrAux fuel n) = n := by
  intro fuel
  induction fuel with
  | zero => intro n h; omega
  | succ fuel ih =>
    intro n h
    rw [pyStrAux]
    by_cases h10 : n < 10
    · rw [if_pos h10]
      simp [strVal, digitChar_toNat n h10]
    · rw [if_neg h10]
      rw [strVal_append_digit, ih (n / 10) (by omega),
        digitChar_toNat (n % 10) (by omega)]
      omega

theorem pyStr_val (n : Nat) : strVal (pyStr n) = n :=
  pyStrAux_val (n + 1) n (by omega)

theorem pyStr_inj : Function.Injective pyStr := by
  intro m n h
  have := pyStr_val m
  rw [h, pyStr_val] at this
  omega

theorem suffixName_inj (base : String) : Function.Injective (suffixName base) := by
  intro i j h
  unfold suffixName at h
  have hd := congrArg String.data h
  simp only [String.data_append, List.append_assoc] at hd
  have h1 := List.append_cancel_left hd
  have h2 := List.append_cancel_left h1
  have h3 : pyStr i ++ (")" : String).data = pyStr j ++ (")" : String).data := h2
  exact pyStr_inj (List.append_cancel_right h3)

theorem exists_free_suffix (existing : List String) (base : String) :
    ∃ i, 1 ≤ i ∧ i ≤ existing.length + 1 ∧ suffixName base i ∉ existing := by
  by_contra hcon
  push_neg at hcon
  have hsub : (Finset.Icc 1 (existing.length + 1)).image (suffixName base) ⊆
      existing.toFinset := by
    intro x hx
    rw [Finset.mem_image] at hx
    obtain ⟨i, hi, rfl⟩ := hx
    rw [Finset.mem_Icc] at hi
    rw [List.mem_toFinset]
    exact hcon i hi.1 hi.2
  have hcard := Finset.card_le_card hsub
  rw [Finset.card_image_of_injective _ (suffixName_inj base),
    Nat.card_Icc] at hcard
  have := List.toFinset_card_le existing
  omega

theorem firstFreeAux_spec (existing : List String) (base : String) :
    ∀ fuel i, (∃ j, i ≤ j ∧ j < i + fuel ∧ suffixName base j ∉ existing) →
      suffixName base (firstFreeAux existing base i fuel) ∉ existing ∧
      i ≤ firstFreeAux existing base i fuel ∧
      ∀ j, i ≤ j → j < firstFreeAux existing base i fuel →
        suffixName base j ∈ existing := by
  intro fuel
  induction fuel with
  | zero =>
    intro i h
    obtain ⟨j, h1, h2, _⟩ := h
    omega
  | succ fuel ih =>
    intro i hex
    simp only [firstFreeAux]
    by_cases hmem : suffixName base i ∈ existing
    · rw [if_pos hmem]
      have hex' : ∃ j, i + 1 ≤ j ∧ j < (i + 1) + fuel ∧
          suffixName base j ∉ existing := by
        obtain ⟨j, h1, h2, h3⟩ := hex
        have : j ≠ i := fun he => h3 (he ▸ hmem)
        exact ⟨j, by omega, by omega, h3⟩
      obtain ⟨ha, hb, hc⟩ := ih (i + 1) hex'
      refine ⟨ha, by omega, ?_⟩
      intro j hj1 hj2
      by_cases hji : j = i
      · rw [hji]; exact hmem
      · exact hc j (by omega) hj2
    · rw [if_neg hmem]
      exact ⟨hmem, le_refl _, fun j h1 h2 => absurd h2 (by omega)⟩

theorem firstFree_spec (existing : List String) (base : String) :
    suffixName base (firstFree existing base) ∉ existing ∧
    1 ≤ firstFree existing base ∧
    ∀ j, 1 ≤ j → j < firstFree existing base →
      suffixName base j ∈ existing := by
  obtain ⟨i, h1, h2, h3⟩ := exists_free_suffix existing base
  exact firstFreeAux_spec existing base (existing.length + 1) 1
    ⟨i, h1, by omega, h3⟩

theorem safe_rename_dest (dryRun : Bool) (existing : List String)
    (folderName newBase : String) (oracle : Nat → RenameOutcome)
    (hne : newBase ≠ folderName) (hocc : newBase ∈ existing) :
    (safe_rename dryRun existing folderName newBase oracle).dest =
      suffixName newBase (firstFree existing newBase) := by
  unfold safe_rename
  rw [if_neg hne, if_pos hocc]
  cases dryRun <;> rfl

/-- C4: when the computed destination name is occupied (and differs
from the folder's own name), the name actually used is never the
occupied name: it is the base with the first numeric suffix naming no
existing entry, so no existing entry is ever overwritten. -/
theorem claim4_no_overwrite (dryRun : Bool) (existing : List String)
    (folderName newBase : String) (oracle : Nat → RenameOutcome)
    (hne : newBase ≠ folderName) (hocc : newBase ∈ existing) :
    (safe_rename dryRun existing folderName newBase oracle).dest ∉ existing ∧
    (safe_rename dryRun existing folderName newBase oracle).dest ≠ newBase ∧
    ∃ k, 1 ≤ k ∧
      (safe_rename dryRun existing folderName newBase oracle).dest =
        suffixName newBase k ∧
      ∀ j, 1 ≤ j → j < k → suffixName newBase j ∈ existing := by
  rw [safe_rename_dest dryRun existing folderName newBase oracle hne hocc]
  obtain ⟨hfree, hone, hleast⟩ := firstFree_spec existing newBase
  refine ⟨hfree, fun he => hfree (by rw [he]; exact hocc),
    firstFree existing newBase, hone, rfl, hleast⟩

/-- Witness for C4: destination `X` is occupied, as is `X (1)`; the
used name is `X (2)`. -/
theorem claim4_witness :
    (("X" : String) ≠ "11111111") ∧ (("X" : String) ∈ ["11111111", "X", "X (1)"]) ∧
    ((safe_rename true ["11111111", "X", "X (1)"] "11111111" "X"
        (fun _ => RenameOutcome.ok)).dest ∉ ["11111111", "X", "X (1)"] ∧
     (safe_rename true ["11111111", "X", "X (1)"] "11111111" "X"
        (fun _ => RenameOutcome.ok)).dest ≠ "X" ∧
     ∃ k, 1 ≤ k ∧
       (safe_rename true ["11111111", "X", "X (1)"] "11111111" "X"
          (fun _ => RenameOutcome.ok)).dest = suffixName "X" k ∧
       ∀ j, 1 ≤ j → j < k → suffixName "X" j ∈ ["11111111", "X", "X (1)"]) :=
  ⟨by decide, by decide,
    claim4_no_overwrite true ["11111111", "X", "X (1)"] "11111111" "X"
      (fun _ => RenameOutcome.ok) (by decide) (by decide)⟩

/-! ### C9: retry on transient failures, no retry on other errors -/

theorem attemptLoop_all_perm (folderName target : String)
    (oracle : Nat → RenameOutcome) :
    ∀ fuel attempts sleeps,
      (∀ i, i < fuel → oracle (attempts + i) = .permDenied) →
      attemptLoop folderName target oracle attempts sleeps fuel =
        (.failRetries folderName target, none, attempts + fuel, sleeps + fuel) := by
  intro fuel
  induction fuel with
  | zero => intro a s _; rfl
  | succ fuel ih =>
    intro a s h
    have h0 : oracle a = .permDenied := by
      have := h 0 (by omega)
      rwa [Nat.add_zero] at this
    simp only [attemptLoop]
    rw [h0]
    rw [ih (a + 1) (s + 1) (fun i hi => by
      rw [show a + 1 + i = a + (i + 1) by omega]
      exact h (i + 1) (by omega))]
    simp only [Prod.mk.injEq]
    exact ⟨trivial, trivial, by omega, by omega⟩

theorem attemptLoop_other (folderName target : String)
    (oracle : Nat → RenameOutcome) :
    ∀ k fuel attempts sleeps, k < fuel →
      (∀ i, i < k → oracle (attempts + i) = .permDenied) →
      oracle (attempts + k) = .otherErr →
      attemptLoop folderName target oracle attempts sleeps fuel =
        (.failOther folderName target, none, attempts + k + 1, sleeps + k) := by
  intro k
  induction k with
  | zero =>
    intro fuel a s hf _ hk
    cases fuel with
    | zero => omega
    | succ fuel =>
      rw [Nat.add_zero] at hk
      simp only [attemptLoop]
      rw [hk]
      simp
  | succ k ih =>
    intro fuel a s hf hperm hk
    cases fuel with
    | zero => omega
    | succ fuel =>
      have h0 : oracle a = .permDenied := by
        have := hperm 0 (by omega)
        rwa [Nat.add_zero] at this
      simp only [attemptLoop]
      rw [h0]
      rw [ih fuel (a + 1) (s + 1) (by omega)
        (fun i hi => by
          rw [show a + 1 + i = a + (i + 1) by omega]
          exact hperm (i + 1) (by omega))
        (by rw [show a + 1 + k = a + (k + 1) by omega]; exact hk)]
      simp only [Prod.mk.injEq]
      exact ⟨trivial, trivial, by omega, by omega⟩

theorem safe_rename_commit_eq (existing : List String)
    (folderName newBase : String) (oracle : Nat → RenameOutcome)
    (hne : newBase ≠ folderName) :
    safe_rename false existing folderName newBase oracle =
      ⟨(attemptLoop folderName
          (safe_rename false existing folderName newBase oracle).dest
          oracle 0 0 RENAMING_RETRIES).1,
        (attemptLoop folderName
          (safe_rename false existing folderName newBase oracle).dest
          oracle 0 0 RENAMING_RETRIES).2.1,
        (safe_rename false existing folderName newBase oracle).dest,
        (attemptLoop folderName
          (safe_rename false existing folderName newBase oracle).dest
          oracle 0 0 RENAMING_RETRIES).2.2.1,
        (attemptLoop folderName
          (safe_rename false existing folderName newBase oracle).dest
          oracle 0 0 RENAMING_RETRIES).2.2.2⟩ := by
  unfold safe_rename
  rw [if_neg hne, if_neg (by decide : ¬(false = true))]

theorem mainLoop_length (dryRun : Bool) (oracle : String → Nat → RenameOutcome) :
    ∀ fs doneNames,
      ((mainLoop dryRun oracle doneNames fs).1).length =
        (fs.filter (fun e => isID8 e.name)).length := by
  intro fs
  induction fs with
  | nil => intro dn; rfl
  | cons e rest ih =>
    intro dn
    simp only [mainLoop]
    by_cases hid : isID8 e.name
    · rw [if_pos hid]
      simp only [List.filter_cons]
      rw [if_pos hid]
      cases hder : derive_name_for_folder e.files with
      | some best => simp [ih]
      | none => simp [ih]
    · rw [if_neg hid]
      simp only [List.filter_cons]
      rw [if_neg hid]
      exact ih _

/-- C9: in commit mode a permission/lock failure is retried up to the
fixed bound and then reported as a terminal failure (no rename); any
other OS failure is reported at once with no further attempts; and
every candidate folder yields exactly one report line, so one folder's
failure never aborts its siblings. -/
theorem claim9_retry_semantics :
    (∀ (existing : List String) (folderName newBase : String)
        (oracle : Nat → RenameOutcome), newBase ≠ folderName →
      (∀ i, i < RENAMING_RETRIES → oracle i = .permDenied) →
      (safe_rename false existing folderName newBase oracle).report =
        .failRetries folderName
          (safe_rename false existing folderName newBase oracle).dest ∧
      (safe_rename false existing folderName newBase oracle).attempts =
        RENAMING_RETRIES ∧
      (safe_rename false existing folderName newBase oracle).newName = none) ∧
    (∀ (existing : List String) (folderName newBase : String)
        (oracle : Nat → RenameOutcome) (k : Nat), newBase ≠ folderName →
      k < RENAMING_RETRIES → (∀ i, i < k → oracle i = .permDenied) →
      oracle k = .otherErr →
      (safe_rename false existing folderName newBase oracle).report =
        .failOther folderName
          (safe_rename false existing folderName newBase oracle).dest ∧
      (safe_rename false existing folderName newBase oracle).attempts = k + 1 ∧
      (safe_rename false existing folderName newBase oracle).newName = none) ∧
    (∀ (dryRun : Bool) (oracle : String → Nat → RenameOutcome)
        (fs : List Entry),
      ((runEngine dryRun oracle fs).1).length =
        (fs.filter (fun e => isID8 e.name)).length) := by
  refine ⟨?_, ?_, ?_⟩
  · intro existing folderName newBase oracle hne hperm
    have hal := attemptLoop_all_perm folderName
      (safe_rename false existing folderName newBase oracle).dest oracle
      RENAMING_RETRIES 0 0
      (fun i hi => by rw [Nat.zero_add]; exact hperm i hi)
    rw [safe_rename_commit_eq existing folderName newBase oracle hne, hal]
    simp
  · intro existing folderName newBase oracle k hne hk hperm hko
    have hal := attemptLoop_other folderName
      (safe_rename false existing folderName newBase oracle).dest oracle
      k RENAMING_RETRIES 0 0 hk
      (fun i hi => by rw [Nat.zero_add]; exact hperm i hi)
      (by rw [Nat.zero_add]; exact hko)
    rw [safe_rename_commit_eq existing folderName newBase oracle hne, hal]
    simp
  · intro dryRun oracle fs
    exact mainLoop_length dryRun oracle fs []

/-- Witness for C9: a folder whose rename always hits the lock error,
and one whose first attempt hits a non-transient error. -/
theorem claim9_witness :
    (("B" : String) ≠ "A") ∧
    ((safe_rename false [] "A" "B" (fun _ => RenameOutcome.permDenied)).report =
        .failRetries "A"
          (safe_rename false [] "A" "B" (fun _ => RenameOutcome.permDenied)).dest ∧
      (safe_rename false [] "A" "B" (fun _ => RenameOutcome.permDenied)).attempts =
        RENAMING_RETRIES ∧
      (safe_rename false [] "A" "B" (fun _ => RenameOutcome.permDenied)).newName =
        none) ∧
    ((safe_rename false [] "A" "B" (fun _ => RenameOutcome.otherErr)).report =
        .failOther "A"
          (safe_rename false [] "A" "B" (fun _ => RenameOutcome.otherErr)).dest ∧
      (safe_rename false [] "A" "B" (fun _ => RenameOutcome.otherErr)).attempts = 1 ∧
      (safe_rename false [] "A" "B" (fun _ => RenameOutcome.otherErr)).newName =
        none) :=
  ⟨by decide,
    claim9_retry_semantics.1 [] "A" "B" (fun _ => RenameOutcome.permDenied)
      (by decide) (fun i _ => rfl),
    claim9_retry_semantics.2.1 [] "A" "B" (fun _ => RenameOutcome.otherErr) 0
      (by decide) (by decide) (fun i hi => absurd hi (by omega)) rfl⟩

/-! ### C10: the already-correct branch is unreachable from `main` -/

theorem target_name_length (id8 : String) (best : String × String) :
    (target_name id8 best).length =
      id8.length + 5 + best.1.length + best.2.length := by
  unfold target_name
  simp only [String.length_append]
  have h3 : (" - " : String).length = 3 := rfl
  have h2 : (", " : String).length = 2 := rfl
  omega

theorem target_name_ne (id8 : String) (best : String × String)
    (_h : isID8 id8 = true) : target_name id8 best ≠ id8 := by
  intro he
  have hlen := congrArg String.length he
  rw [target_name_length] at hlen
  omega

theorem attemptLoop_not_same (fn t : String) (oracle : Nat → RenameOutcome) :
    ∀ fuel a s n, (attemptLoop fn t oracle a s fuel).1 ≠ .same n := by
  intro fuel
  induction fuel with
  | zero => intro a s n; simp [attemptLoop]
  | succ fuel ih =>
    intro a s n
    simp only [attemptLoop]
    cases horacle : oracle a with
    | ok => simp
    | permDenied => exact ih (a + 1) (s + 1) n
    | otherErr => simp

theorem safe_rename_not_same (dryRun : Bool) (existing : List String)
    (folderName newBase : String) (oracle : Nat → RenameOutcome)
    (hne : newBase ≠ folderName) :
    ∀ n, (safe_rename dryRun existing folderName newBase oracle).report ≠
      .same n := by
  intro n
  unfold safe_rename
  rw [if_neg hne]
  cases dryRun
  · rw [if_neg (by decide : ¬(false = true))]
    exact attemptLoop_not_same folderName _ oracle RENAMING_RETRIES 0 0 n
  · rw [if_pos (rfl : (true : Bool) = true)]
    simp

theorem mainLoop_not_same (dryRun : Bool)
    (oracle : String → Nat → RenameOutcome) :
    ∀ fs doneNames rep, rep ∈ (mainLoop dryRun oracle doneNames fs).1 →
      ∀ n, rep ≠ .same n := by
  intro fs
  induction fs with
  | nil => intro dn rep h; simp [mainLoop] at h
  | cons e rest ih =>
    intro dn rep h
    simp only [mainLoop] at h
    by_cases hid : isID8 e.name
    · rw [if_pos hid] at h
      rcases hder : derive_name_for_folder e.files with _ | best
      · rw [hder] at h
        simp only [] at h
        rcases List.mem_cons.mp h with h' | h'
        · rw [h']; intro n; simp
        · exact ih _ rep h'
      · rw [hder] at h
        simp only [] at h
        rcases List.mem_cons.mp h with h' | h'
        · rw [h']
          exact safe_rename_not_same dryRun _ e.name _ _
            (target_name_ne e.name best hid)
        · exact ih _ rep h'
    · rw [if_neg hid] at h
      exact ih _ rep h

/-- C10: the engine only processes folders whose name is exactly eight
digits, while every computed destination embeds a longer decorated
name, so the destination can never equal the current name and the
already-correct branch is unreachable: no report line of a run is ever
a `[SAME]` line. -/
theorem claim10_same_unreachable :
    (∀ (id8 : String) (best : String × String), isID8 id8 = true →
      target_name id8 best ≠ id8) ∧
    (∀ (dryRun : Bool) (oracle : String → Nat → RenameOutcome)
        (fs : List Entry) (rep : Report),
      rep ∈ (runEngine dryRun oracle fs).1 → ∀ n, rep ≠ Report.same n) :=
  ⟨fun id8 best h => target_name_ne id8 best h,
   fun dryRun oracle fs rep h => mainLoop_not_same dryRun oracle fs [] rep h⟩

set_option maxRecDepth 100000 in
/-- Witness for C10: the preview run over one folder emits a `[DRY]`
line, not a `[SAME]` line. -/
theorem claim10_witness :
    (isID8 "12305932" = true) ∧
    (target_name "12305932" ("Wynn", "Hannah") ≠ "12305932") ∧
    (Report.dry "12305932" "12305932 - Wynn, Hannah" ∈
      (runEngine true okOracle
        [⟨"12305932", [⟨"Wynn, Hannah.pdf", true, "t"⟩]⟩]).1) ∧
    (∀ n, Report.dry "12305932" "12305932 - Wynn, Hannah" ≠ Report.same n) :=
  ⟨by decide,
   claim10_same_unreachable.1 "12305932" ("Wynn", "Hannah") (by decide),
   by decide,
   claim10_same_unreachable.2 true okOracle
     [⟨"12305932", [⟨"Wynn, Hannah.pdf", true, "t"⟩]⟩]
     (Report.dry "12305932" "12305932 - Wynn, Hannah") (by decide)⟩

/-! ### C3: running twice in commit mode -/

theorem attemptLoop_first_ok (fn t : String) (oracle : Nat → RenameOutcome)
    (fuel a s : Nat) (h0 : oracle a = .ok) :
    attemptLoop fn t oracle a s (fuel + 1) =
      (.renamed fn t, some t, a + 1, s) := by
  simp only [attemptLoop]
  rw [h0]

theorem safe_rename_first_ok (existing : List String) (fn nb : String)
    (oracle : Nat → RenameOutcome) (hne : nb ≠ fn) (h0 : oracle 0 = .ok) :
    ∃ t, safe_rename false existing fn nb oracle =
      ⟨.renamed fn t, some t, t, 1, 0⟩ := by
  refine ⟨(safe_rename false existing fn nb oracle).dest, ?_⟩
  rw [safe_rename_commit_eq existing fn nb oracle hne]
  rw [show RENAMING_RETRIES = 4 + 1 from rfl,
    attemptLoop_first_ok fn _ oracle 4 0 0 h0]

theorem safe_rename_dest_free (dryRun : Bool) (existing : List String)
    (fn nb : String) (oracle : Nat → RenameOutcome)
    (hne : nb ≠ fn) (hocc : nb ∉ existing) :
    (safe_rename dryRun existing fn nb oracle).dest = nb := by
  unfold safe_rename
  rw [if_neg hne, if_neg hocc]
  cases dryRun <;> rfl

theorem safe_rename_dest_cases (dryRun : Bool) (existing : List String)
    (fn nb : String) (oracle : Nat → RenameOutcome) (hne : nb ≠ fn) :
    (safe_rename dryRun existing fn nb oracle).dest = nb ∨
    ∃ k, (safe_rename dryRun existing fn nb oracle).dest = suffixName nb k := by
  by_cases hocc : nb ∈ existing
  · right
    exact ⟨firstFree existing nb,
      safe_rename_dest dryRun existing fn nb oracle hne hocc⟩
  · left
    exact safe_rename_dest_free dryRun existing fn nb oracle hne hocc

theorem pyStr_ne_nil (n : Nat) : pyStr n ≠ [] := by
  unfold pyStr
  rw [pyStrAux]
  split <;> simp

theorem suffixName_length_ge (base : String) (k : Nat) :
    base.length + 4 ≤ (suffixName base k).length := by
  unfold suffixName
  simp only [String.length_append]
  have h1 : (" (" : String).length = 2 := rfl
  have h2 : ((")") : String).length = 1 := rfl
  have h3 : ((⟨pyStr k⟩ : String)).length = (pyStr k).length := rfl
  have h4 : 0 < (pyStr k).length := List.length_pos.mpr (pyStr_ne_nil k)
  omega

theorem isID8_false_of_length (s : String) (h : s.length ≠ 8) :
    isID8 s = false := by
  simp [isID8, h]

theorem isID8_length (s : String) (h : isID8 s = true) : s.length = 8 := by
  simp [isID8] at h
  exact h.1

theorem renamed_dest_not_id8 (dryRun : Bool) (existing : List String)
    (fn : String) (best : String × String) (oracle : Nat → RenameOutcome)
    (hid : isID8 fn = true) :
    isID8 (safe_rename dryRun existing fn (target_name fn best) oracle).dest =
      false := by
  have hne := target_name_ne fn best hid
  have hlen8 := isID8_length fn hid
  have hlen := target_name_length fn best
  rcases safe_rename_dest_cases dryRun existing fn (target_name fn best)
      oracle hne with h | ⟨k, h⟩
  · rw [h]
    exact isID8_false_of_length _ (by omega)
  · rw [h]
    have := suffixName_length_ge (target_name fn best) k
    exact isID8_false_of_length _ (by omega)

theorem mainLoop_run1_inv :
    ∀ (fs : List Entry) (dn : List String) (e1 : Entry),
      e1 ∈ (mainLoop false okOracle dn fs).2 →
      isID8 e1.name = false ∨ derive_name_for_folder e1.files = none := by
  intro fs
  induction fs with
  | nil => intro dn e1 h; simp [mainLoop] at h
  | cons e rest ih =>
    intro dn e1 h
    simp only [mainLoop] at h
    by_cases hid : isID8 e.name
    · rw [if_pos hid] at h
      rcases hder : derive_name_for_folder e.files with _ | best
      · rw [hder] at h
        simp only [] at h
        rcases List.mem_cons.mp h with h' | h'
        · rw [h']; right; exact hder
        · exact ih _ e1 h'
      · rw [hder] at h
        simp only [] at h
        rcases List.mem_cons.mp h with h' | h'
        · left
          have hne := target_name_ne e.name best hid
          obtain ⟨t, ht⟩ := safe_rename_first_ok
            (dn ++ e.name :: rest.map (fun x => x.name)) e.name
            (target_name e.name best) (okOracle e.name) hne rfl
          rw [ht] at h'
          simp only [Option.getD_some] at h'
          rw [h']
          have hdest : (safe_rename false
              (dn ++ e.name :: rest.map (fun x => x.name)) e.name
              (target_name e.name best) (okOracle e.name)).dest = t := by
            rw [ht]
          have := renamed_dest_not_id8 false
            (dn ++ e.name :: rest.map (fun x => x.name)) e.name best
            (okOracle e.name) hid
          rw [hdest] at this
          exact this
        · exact ih _ e1 h'
    · rw [if_neg hid] at h
      rcases List.mem_cons.mp h with h' | h'
      · rw [h']; left; exact Bool.of_not_eq_true hid
      · exact ih _ e1 h'

theorem mainLoop_all_skip :
    ∀ (fs : List Entry) (dn : List String),
      (∀ e ∈ fs, isID8 e.name = false ∨ derive_name_for_folder e.files = none) →
      mainLoop false okOracle dn fs =
        ((fs.filter (fun e => isID8 e.name)).map (fun e => Report.skip e.name),
          fs) := by
  intro fs
  induction fs with
  | nil => intro dn _; rfl
  | cons e rest ih =>
    intro dn h
    have he := h e (List.mem_cons_self _ _)
    have hrest := fun x hx => h x (List.mem_cons_of_mem _ hx)
    simp only [mainLoop]
    by_cases hid : isID8 e.name
    · rw [if_pos hid]
      rcases he with h' | h'
      · rw [hid] at h'; cases h'
      · rw [h']
        simp only []
        rw [ih _ hrest]
        simp [List.filter_cons, hid]
    · rw [if_neg hid]
      rw [ih _ hrest]
      simp [List.filter_cons, hid]

/-- C3 counterexample: the first commit run renames the folder, but the
second run reports nothing at all — the renamed folder no longer
matches the eight-digit filter, so no `[SAME]` line is emitted for it,
contradicting the claim as stated. -/
theorem claim3_counterexample :
    (runEngine false okOracle
        [⟨"12305932", [⟨"Wynn, Hannah.pdf", true, "t"⟩]⟩]).1 =
      [Report.renamed "12305932" "12305932 - Wynn, Hannah"] ∧
    (runEngine false okOracle
        ((runEngine false okOracle
          [⟨"12305932", [⟨"Wynn, Hannah.pdf", true, "t"⟩]⟩]).2)).1 =
      ([] : List Report) := by
  constructor
  · decide
  · decide

/-- C3 amended: a second commit run over the outcome of a first
(successful) commit run performs no renames and leaves every directory
name unchanged; its only report lines are `[SKIP]` lines for eight-digit
folders that had no reliable name — folders renamed by the first run
fail the eight-digit filter and are passed over silently, so they are
not reported `[SAME]`. -/
theorem claim3_second_run_is_noop (fs : List Entry) :
    runEngine false okOracle ((runEngine false okOracle fs).2) =
      ((((runEngine false okOracle fs).2).filter (fun e => isID8 e.name)).map
        (fun e => Report.skip e.name),
       (runEngine false okOracle fs).2) :=
  mainLoop_all_skip ((runEngine false okOracle fs).2) []
    (fun e he => mainLoop_run1_inv fs [] e he)

/-! ### C7: the text normalizer -/

theorem dropWhile_length_le (p : Char → Bool) (l : List Char) :
    (l.dropWhile p).length ≤ l.length := by
  induction l with
  | nil => simp
  | cons c cs ih =>
    rw [List.dropWhile_cons]
    split
    · simp only [List.length_cons]; omega
    · simp

theorem intercalate_cons_cons (sep x y : List Char) (ys : List (List Char)) :
    List.intercalate sep (x :: y :: ys) = x ++ sep ++ List.intercalate sep (y :: ys) := by
  simp [List.intercalate, List.intersperse_cons_cons, List.flatten_cons]

theorem dropWhile_head_false (p : Char → Bool) :
    ∀ (l : List Char) (d : Char) (ds : List Char),
      l.dropWhile p = d :: ds → p d = false := by
  intro l
  induction l with
  | nil => intro d ds h; cases h
  | cons c cs ih =>
    intro d ds h
    rw [List.dropWhile_cons] at h
    by_cases hc : p c = true
    · rw [if_pos hc] at h
      exact ih d ds h
    · rw [if_neg hc] at h
      injection h with h1 _
      rw [← h1]
      exact Bool.eq_false_iff.mpr hc

theorem subWs_cons_ws (c : Char) (cs : List Char) (hc : pyIsSpace c = true) :
    subWsAux false (c :: cs) = ' ' :: subWsAux false (cs.dropWhile pyIsSpace) := by
  have h1 : ∀ l, subWsAux true l = subWsAux false (l.dropWhile pyIsSpace) := by
    intro l
    induction l with
    | nil => rfl
    | cons d ds ih =>
      by_cases hd : pyIsSpace d = true
      · simp only [subWsAux, List.dropWhile_cons]
        rw [if_pos hd, if_pos hd]
        exact ih
      · have hd' : pyIsSpace d = false := Bool.eq_false_iff.mpr hd
        simp only [subWsAux, List.dropWhile_cons]
        rw [if_neg (by simp [hd']), if_neg hd]
        simp only [subWsAux]
        rw [if_neg (by simp [hd'])]
  simp only [subWsAux]
  rw [if_pos hc, if_neg (by simp)]
  rw [h1]

theorem subWs_cons_nws (c : Char) (cs : List Char) (hc : pyIsSpace c = false) :
    subWsAux false (c :: cs) = c :: subWsAux false cs := by
  simp only [subWsAux]
  rw [if_neg (by simp [hc])]

theorem tokens_cons_ws (acc : List Char) (c : Char) (cs : List Char)
    (hacc : acc ≠ []) (hc : pyIsSpace c = true) :
    wsTokensAux acc (c :: cs) = acc.reverse :: wsTokensAux [] cs := by
  simp only [wsTokensAux]
  rw [if_pos hc, if_neg hacc]

theorem tokens_nil_cons_ws (c : Char) (cs : List Char) (hc : pyIsSpace c = true) :
    wsTokensAux [] (c :: cs) = wsTokensAux [] cs := by
  simp only [wsTokensAux]
  rw [if_pos hc]
  simp

theorem tokens_cons_nws (acc : List Char) (c : Char) (cs : List Char)
    (hc : pyIsSpace c = false) :
    wsTokensAux acc (c :: cs) = wsTokensAux (c :: acc) cs := by
  simp only [wsTokensAux]
  rw [if_neg (by simp [hc])]

theorem wsTokensAux_nil_skip (l : List Char) :
    wsTokensAux [] l = wsTokensAux [] (l.dropWhile pyIsSpace) := by
  induction l with
  | nil => rfl
  | cons c cs ih =>
    by_cases hc : pyIsSpace c = true
    · rw [tokens_nil_cons_ws c cs hc, List.dropWhile_cons, if_pos hc]
      exact ih
    · rw [List.dropWhile_cons, if_neg hc]

theorem wsTokensAux_ne_nil : ∀ (l acc : List Char), acc ≠ [] →
    wsTokensAux acc l ≠ [] := by
  intro l
  induction l with
  | nil =>
    intro acc hacc
    simp only [wsTokensAux]
    rw [if_neg hacc]
    exact List.cons_ne_nil _ _
  | cons c cs ih =>
    intro acc hacc
    by_cases hc : pyIsSpace c = true
    · rw [tokens_cons_ws acc c cs hacc hc]
      exact List.cons_ne_nil _ _
    · rw [tokens_cons_nws acc c cs (Bool.eq_false_iff.mpr hc)]
      exact ih _ (List.cons_ne_nil _ _)

theorem rstripWs_cons_of_not_ws (c : Char) (x : List Char)
    (hc : pyIsSpace c = false) : rstripWs (c :: x) = c :: rstripWs x := by
  unfold rstripWs
  rw [List.reverse_cons, List.dropWhile_append]
  split
  · next hemp =>
    have hx : x.reverse.dropWhile pyIsSpace = [] := by
      simpa [List.isEmpty_iff] using hemp
    rw [List.dropWhile_cons, if_neg (by simp [hc])]
    rw [hx]
    rfl
  · rw [List.reverse_append]
    rfl

theorem rstripWs_cons_of_ne_nil (c : Char) (x : List Char)
    (hx : rstripWs x ≠ []) : rstripWs (c :: x) = c :: rstripWs x := by
  unfold rstripWs at hx ⊢
  rw [List.reverse_cons, List.dropWhile_append]
  have hne : ¬(x.reverse.dropWhile pyIsSpace).isEmpty = true := by
    intro h
    rw [List.isEmpty_iff] at h
    exact hx (by rw [h]; rfl)
  rw [if_neg hne, List.reverse_append]
  rfl

theorem subWs_join_aux : ∀ (n : Nat) (l : List Char), l.length ≤ n →
    ∀ acc : List Char, acc ≠ [] →
      acc.reverse ++ rstripWs (subWsAux false l) =
        List.intercalate [' '] (wsTokensAux acc l) := by
  intro n
  induction n with
  | zero =>
    intro l hl acc hacc
    have hnil : l = [] := List.length_eq_zero.mp (by omega)
    subst hnil
    show acc.reverse ++ rstripWs [] = List.intercalate [' ']
      (if acc = [] then [] else [acc.reverse])
    rw [if_neg hacc]
    simp [rstripWs, List.intercalate]
  | succ n ih =>
    intro l hl acc hacc
    cases l with
    | nil =>
      show acc.reverse ++ rstripWs [] = List.intercalate [' ']
        (if acc = [] then [] else [acc.reverse])
      rw [if_neg hacc]
      simp [rstripWs, List.intercalate]
    | cons c cs =>
      by_cases hc : pyIsSpace c = true
      · rw [subWs_cons_ws c cs hc, tokens_cons_ws acc c cs hacc hc,
          wsTokensAux_nil_skip]
        rcases hcs : cs.dropWhile pyIsSpace with _ | ⟨d, ds⟩
        · show acc.reverse ++ rstripWs [' '] = _
          rw [show rstripWs [' '] = [] by decide]
          show _ = List.intercalate [' '] [acc.reverse]
          simp [List.intercalate]
        · have hd : pyIsSpace d = false := dropWhile_head_false _ cs d ds hcs
          rw [subWs_cons_nws d ds hd]
          have hne2 : rstripWs (d :: subWsAux false ds) ≠ [] := by
            rw [rstripWs_cons_of_not_ws d _ hd]
            exact List.cons_ne_nil _ _
          rw [rstripWs_cons_of_ne_nil _ _ hne2]
          have hlen : ds.length ≤ n := by
            have h1 := dropWhile_length_le pyIsSpace cs
            rw [hcs] at h1
            simp only [List.length_cons] at h1 hl
            omega
          have hih := ih ds hlen [d] (List.cons_ne_nil _ _)
          have htok2 : wsTokensAux ([] : List Char) (d :: ds) =
              wsTokensAux [d] ds := tokens_cons_nws [] d ds hd
          rw [htok2]
          rcases htk : wsTokensAux [d] ds with _ | ⟨t, ts⟩
          · exact absurd htk (wsTokensAux_ne_nil ds [d] (List.cons_ne_nil _ _))
          · rw [intercalate_cons_cons, ← htk, ← hih,
              rstripWs_cons_of_not_ws d _ hd]
            simp
      · have hc' : pyIsSpace c = false := Bool.eq_false_iff.mpr hc
        rw [subWs_cons_nws c cs hc', tokens_cons_nws acc c cs hc',
          rstripWs_cons_of_not_ws c _ hc']
        have hih := ih cs (by simp only [List.length_cons] at hl; omega)
          (c :: acc) (List.cons_ne_nil _ _)
        rw [← hih]
        simp

theorem subWs_strip_join (l : List Char) :
    pyStripList (subWsAux false l) =
      List.intercalate [' '] (wsTokensAux [] l) := by
  have hps : pyStripList (subWsAux false l) =
      rstripWs ((subWsAux false l).dropWhile pyIsSpace) := rfl
  have h9 : (subWsAux false l).dropWhile pyIsSpace =
      subWsAux false (l.dropWhile pyIsSpace) := by
    cases l with
    | nil => rfl
    | cons c cs =>
      by_cases hc : pyIsSpace c = true
      · rw [subWs_cons_ws c cs hc, List.dropWhile_cons,
          if_pos (by decide : pyIsSpace ' ' = true), List.dropWhile_cons,
          if_pos hc]
        rcases hcs : cs.dropWhile pyIsSpace with _ | ⟨d, ds⟩
        · rfl
        · have hd : pyIsSpace d = false := dropWhile_head_false _ cs d ds hcs
          rw [subWs_cons_nws d ds hd, List.dropWhile_cons, if_neg (by simp [hd])]
      · have hc' : pyIsSpace c = false := Bool.eq_false_iff.mpr hc
        rw [subWs_cons_nws c cs hc', List.dropWhile_cons, if_neg hc,
          List.dropWhile_cons, if_neg hc, subWs_cons_nws c cs hc']
  rw [hps, h9, wsTokensAux_nil_skip]
  rcases hl : l.dropWhile pyIsSpace with _ | ⟨d, ds⟩
  · show rstripWs [] = List.intercalate [' '] (wsTokensAux [] [])
    simp [rstripWs, wsTokensAux, List.intercalate]
  · have hd : pyIsSpace d = false := dropWhile_head_false _ l d ds hl
    rw [subWs_cons_nws d ds hd, tokens_cons_nws [] d ds hd,
      rstripWs_cons_of_not_ws d _ hd]
    have := subWs_join_aux ds.length ds (le_refl _) [d] (List.cons_ne_nil _ _)
    simpa using this

/-- C7 counterexample: the figure dash U+2012 is not replaced by the
normalizer, contradicting the claim that every em/en/figure dash
variant becomes an ASCII hyphen. -/
theorem claim7_counterexample :
    collapse_ws ⟨[Char.ofNat 8210]⟩ = ⟨[Char.ofNat 8210]⟩ ∧
    (⟨[Char.ofNat 8210]⟩ : String) ≠ "-" := by
  constructor
  · decide
  · decide

/-- C7 amended: the normalizer is total (the empty string maps to the
empty string); after replacing the non-breaking space by a space and
the hyphen (U+2010), non-breaking hyphen (U+2011), en dash (U+2013) and
em dash (U+2014) by an ASCII hyphen — the figure dash U+2012 is left
unchanged — its output is exactly the whitespace-separated tokens of
the text joined by single spaces, which collapses every whitespace run
and trims both ends. -/
theorem claim7_normalizer (s : String) :
    collapse_ws "" = "" ∧
    (collapse_ws s).data =
      List.intercalate [' '] (wsTokensAux [] (dashNorm s).data) ∧
    collapse_ws ⟨['a', Char.ofNat 160, 'b']⟩ = "a b" ∧
    collapse_ws ⟨[Char.ofNat 8208]⟩ = "-" ∧
    collapse_ws ⟨[Char.ofNat 8209]⟩ = "-" ∧
    collapse_ws ⟨[Char.ofNat 8211]⟩ = "-" ∧
    collapse_ws ⟨[Char.ofNat 8212]⟩ = "-" := by
  refine ⟨rfl, ?_, by decide, by decide, by decide, by decide, by decide⟩
  show pyStripList (subWsAux false (dashNorm s).data) = _
  exact subWs_strip_join _

/-! ### C6: contextual disqualification -/

theorem generalEmit_none_of_reject (blob : String) (hcb : Bool) (m : RMatch)
    (h : reSearch CONTEXT_REJECT (ctxWindow blob.data m.mstart m.mstop) = true) :
    generalEmit blob hcb m = none := by
  unfold generalEmit
  rw [h]

set_option maxRecDepth 100000 in
/-- C6 counterexample: in the document text
`Data Verification Student Name: Smith, John` the declared-name rule
matches with a context window containing the disqualifying phrase
`Data Verification`, yet the match still produces the candidate
`(Smith, John)` — declared-name matches are never context-checked. -/
theorem claim6_counterexample :
    (∃ m ∈ finditerS PAT_DVF "Data Verification Student Name: Smith, John",
      reSearch CONTEXT_REJECT
        (ctxWindow ("Data Verification Student Name: Smith, John" : String).data
          m.mstart m.mstop) = true) ∧
    dvfCands "Data Verification Student Name: Smith, John" =
      [("Smith", "John", 34)] ∧
    candidates_from_pdf "Data Verification Student Name: Smith, John" =
      [("Smith", "John", 34)] := by
  refine ⟨?_, ?_, ?_⟩
  · decide
  · decide
  · decide

/-- C6 amended: the context-window rejection applies exactly to the
general comma/semicolon/space-form document matches: any such match
whose window contains a disqualifying phrase produces no candidate, and
every candidate the general loops emit comes from a match whose window
is free of disqualifying phrases.  Declared-name matches are exempt
from the check. -/
theorem claim6_context_rejection :
    (∀ (blob : String) (hcb : Bool) (m : RMatch),
      reSearch CONTEXT_REJECT (ctxWindow blob.data m.mstart m.mstop) = true →
      generalEmit blob hcb m = none) ∧
    (∀ (blob : String) (pat : RE) (hcb : Bool) (c : Cand),
      c ∈ generalCandsPat blob pat hcb →
      ∃ m ∈ finditerS pat blob,
        reSearch CONTEXT_REJECT (ctxWindow blob.data m.mstart m.mstop) = false ∧
        generalEmit blob hcb m = some c) := by
  constructor
  · exact generalEmit_none_of_reject
  · intro blob pat hcb c hc
    unfold generalCandsPat at hc
    obtain ⟨m, hm, he⟩ := List.mem_filterMap.mp hc
    refine ⟨m, hm, ?_, he⟩
    cases hr : reSearch CONTEXT_REJECT (ctxWindow blob.data m.mstart m.mstop)
    · rfl
    · rw [generalEmit_none_of_reject blob hcb m hr] at he
      cases he

set_option maxRecDepth 100000 in
/-- Witness for C6: a rejecting window forces `none`, and the accepted
comma-form match in `Wynn, Hannah` has a clean window. -/
theorem claim6_witness :
    (reSearch CONTEXT_REJECT (ctxWindow ("Guardian" : String).data 0 8) = true) ∧
    (generalEmit "Guardian" true ⟨0, 8, []⟩ = none) ∧
    (("Wynn", "Hannah", (18 : Int)) ∈ generalCandsPat "Wynn, Hannah" PAT_COMMA true) ∧
    (∃ m ∈ finditerS PAT_COMMA "Wynn, Hannah",
      reSearch CONTEXT_REJECT
        (ctxWindow ("Wynn, Hannah" : String).data m.mstart m.mstop) = false ∧
      generalEmit "Wynn, Hannah" true m = some ("Wynn", "Hannah", 18)) :=
  ⟨by decide,
   claim6_context_rejection.1 "Guardian" true ⟨0, 8, []⟩ (by decide),
   by decide,
   claim6_context_rejection.2 "Wynn, Hannah" PAT_COMMA true
     ("Wynn", "Hannah", 18) (by decide)⟩

/-! ### C8: every emitted candidate is validated -/

theorem toLower_of_ws (c : Char) (h : pyIsSpace c = true) :
    Char.toLower c = c := by
  unfold Char.toLower
  show (if c.toNat ≥ 65 ∧ c.toNat ≤ 90 then Char.ofNat (c.toNat + 32) else c) = c
  split
  · next hb =>
    exfalso
    simp only [pyIsSpace, Bool.or_eq_true, Bool.and_eq_true,
      decide_eq_true_eq] at h
    omega
  · rfl

theorem toUpper_not_ws (c : Char) (hc : pyIsSpace c = false) :
    pyIsSpace (Char.toUpper c) = false := by
  unfold Char.toUpper
  show pyIsSpace
      (if c.toNat ≥ 97 ∧ c.toNat ≤ 122 then Char.ofNat (c.toNat - 32) else c) = false
  split
  · next hb =>
    obtain ⟨m, hm⟩ : ∃ m, m = c.toNat - 32 := ⟨_, rfl⟩
    rw [← hm]
    have h3 : 65 ≤ m := by omega
    have h4 : m ≤ 90 := by omega
    interval_cases m <;> decide
  · exact hc

theorem wsTokens_props : ∀ (l acc : List Char),
    (∀ a ∈ acc, pyIsSpace a = false) →
    ∀ tok ∈ wsTokensAux acc l, tok ≠ [] ∧ ∀ ch ∈ tok, pyIsSpace ch = false := by
  intro l
  induction l with
  | nil =>
    intro acc hacc tok htok
    simp only [wsTokensAux] at htok
    by_cases h : acc = []
    · rw [if_pos h] at htok; cases htok
    · rw [if_neg h] at htok
      rw [List.mem_singleton] at htok
      subst htok
      refine ⟨fun hc => h (by simpa using hc), ?_⟩
      intro ch hch
      exact hacc ch (List.mem_reverse.mp hch)
  | cons c cs ih =>
    intro acc hacc tok htok
    by_cases hc : pyIsSpace c = true
    · by_cases h : acc = []
      · subst h
        rw [tokens_nil_cons_ws c cs hc] at htok
        exact ih [] (by simp) tok htok
      · rw [tokens_cons_ws acc c cs h hc] at htok
        rcases List.mem_cons.mp htok with h' | h'
        · subst h'
          refine ⟨fun hc2 => h (by simpa using hc2), ?_⟩
          intro ch hch
          exact hacc ch (List.mem_reverse.mp hch)
        · exact ih [] (by simp) tok h'
    · have hc' : pyIsSpace c = false := Bool.eq_false_iff.mpr hc
      rw [tokens_cons_nws acc c cs hc'] at htok
      refine ih (c :: acc) ?_ tok htok
      intro a ha
      rcases List.mem_cons.mp ha with h' | h'
      · subst h'; exact hc'
      · exact hacc a h'

theorem tokens_append_nws (t : List Char) :
    ∀ (acc rest : List Char), (∀ ch ∈ t, pyIsSpace ch = false) →
      wsTokensAux acc (t ++ rest) = wsTokensAux (t.reverse ++ acc) rest := by
  induction t with
  | nil => intro acc rest _; rfl
  | cons c ts ih =>
    intro acc rest h
    have hc : pyIsSpace c = false := h c (List.mem_cons_self _ _)
    rw [List.cons_append, tokens_cons_nws acc c _ hc,
      ih (c :: acc) rest (fun ch hch => h ch (List.mem_cons_of_mem _ hch))]
    congr 1
    simp

theorem tokens_roundtrip : ∀ ts : List (List Char),
    (∀ t ∈ ts, t ≠ [] ∧ ∀ ch ∈ t, pyIsSpace ch = false) →
    wsTokensAux [] (List.intercalate [' '] ts) = ts := by
  intro ts
  induction ts with
  | nil => intro _; rfl
  | cons t ts' ih =>
    intro h
    obtain ⟨hne, hws⟩ := h t (List.mem_cons_self _ _)
    cases ts' with
    | nil =>
      rw [show List.intercalate [' '] [t] = t by simp [List.intercalate]]
      have hstep := tokens_append_nws t [] [] hws
      simp only [List.append_nil] at hstep
      rw [hstep]
      show (if t.reverse = [] then [] else [t.reverse.reverse]) = [t]
      rw [if_neg (by simpa using hne), List.reverse_reverse]
    | cons t2 ts'' =>
      rw [intercalate_cons_cons, List.append_assoc, tokens_append_nws t [] _ hws,
        List.append_nil, List.singleton_append,
        tokens_cons_ws t.reverse ' ' _ (by simpa using hne) (by decide),
        List.reverse_reverse,
        ih (fun x hx => h x (List.mem_cons_of_mem _ hx))]

theorem ICflat : ∀ (x : List Char) (xs : List (List Char)),
    List.intercalate [' '] (x :: xs) =
      x ++ (xs.map (fun z => ' ' :: z)).flatten := by
  intro x xs
  induction xs generalizing x with
  | nil => simp [List.intercalate]
  | cons y ys ih =>
    rw [intercalate_cons_cons, ih y]
    simp [List.flatten_cons, List.append_assoc]

theorem SIgo_data : ∀ (as : List String) (acc : String),
    (String.intercalate.go acc " " as).data =
      acc.data ++ (as.map (fun a => ' ' :: a.data)).flatten := by
  intro as
  induction as with
  | nil => intro acc; simp [String.intercalate.go]
  | cons a as' ih =>
    intro acc
    show (String.intercalate.go (acc ++ " " ++ a) " " as').data = _
    rw [ih]
    simp [String.data_append, List.flatten_cons, List.append_assoc]

theorem pySplit_props (s : String) :
    ∀ t ∈ pySplit s, t ≠ "" ∧ ∀ ch ∈ t.data, pyIsSpace ch = false := by
  intro t ht
  unfold pySplit at ht
  obtain ⟨tok, htok, he⟩ := List.mem_map.mp ht
  obtain ⟨h1, h2⟩ := wsTokens_props s.data [] (by simp) tok htok
  subst he
  refine ⟨?_, ?_⟩
  · intro hc
    apply h1
    have hd : (⟨tok⟩ : String).data = ("" : String).data := by rw [hc]
    simpa using hd
  · intro ch hch
    exact h2 ch hch

theorem capFirst_props (t : String) (h1 : t ≠ "")
    (h2 : ∀ ch ∈ t.data, pyIsSpace ch = false) :
    (capFirst t).data ≠ [] ∧ ∀ ch ∈ (capFirst t).data, pyIsSpace ch = false := by
  cases t with
  | mk l =>
    cases l with
    | nil => exact absurd rfl h1
    | cons c rest =>
      constructor
      · show c.toUpper :: rest ≠ ([] : List Char)
        simp
      · intro ch hch
        have hch2 : ch ∈ c.toUpper :: rest := hch
        rcases List.mem_cons.mp hch2 with h' | h'
        · subst h'
          exact toUpper_not_ws c (h2 c (List.mem_cons_self _ _))
        · exact h2 ch (List.mem_cons_of_mem _ h')

theorem intercalate_map_data (ss : List String) :
    (String.intercalate " " ss).data =
      List.intercalate [' '] (ss.map String.data) := by
  cases ss with
  | nil => rfl
  | cons a as =>
    show (String.intercalate.go a " " as).data = _
    rw [SIgo_data, List.map_cons, ICflat, List.map_map]
    rfl

theorem pySplit_intercalate (ts : List String)
    (h : ∀ t ∈ ts, t.data ≠ [] ∧ ∀ ch ∈ t.data, pyIsSpace ch = false) :
    pySplit (String.intercalate " " ts) = ts := by
  unfold pySplit
  rw [intercalate_map_data, tokens_roundtrip]
  · have h2 : List.map ((fun l => (⟨l⟩ : String)) ∘ String.data) ts
        = List.map id ts := rfl
    rw [List.map_map, h2, List.map_id]
  · intro tl htl
    obtain ⟨t, ht, he⟩ := List.mem_map.mp htl
    subst he
    exact h t ht

theorem pySplit_clean (s : String) :
    pySplit (clean_name_side s) =
      ((pySplit (replaceCommaSpace (strip_labels s))).filter keepToken).map capFirst := by
  have hprops : ∀ t ∈ ((pySplit (replaceCommaSpace
        (strip_labels s))).filter keepToken).map capFirst,
      t.data ≠ [] ∧ ∀ ch ∈ t.data, pyIsSpace ch = false := by
    intro t ht
    obtain ⟨t0, ht0, he⟩ := List.mem_map.mp ht
    obtain ⟨h1, h2⟩ := pySplit_props _ t0 (List.mem_of_mem_filter ht0)
    subst he
    exact capFirst_props t0 h1 h2
  exact pySplit_intercalate _ hprops

theorem keepToken_passes (t : String) (h : keepToken t = true) :
    passesFilter (capFirst t) = true := by
  unfold keepToken at h
  unfold passesFilter
  rw [Bool.or_eq_true] at h ⊢
  tauto

theorem clean_tokens_pass (s : String) :
    ∀ t ∈ pySplit (clean_name_side s), passesFilter t = true := by
  intro t ht
  rw [pySplit_clean] at ht
  obtain ⟨t0, ht0, he⟩ := List.mem_map.mp ht
  have hk : keepToken t0 = true := List.of_mem_filter ht0
  rw [← he]
  exact keepToken_passes t0 hk

theorem token_ok_not_stopword (t : String) (h : token_ok t = true) :
    pyLower t ∉ STOPWORDS_LOWER := by
  intro hmem
  simp only [token_ok] at h
  by_cases h1 : t = ""
  · rw [if_pos h1] at h; cases h
  · rw [if_neg h1] at h
    by_cases h2 : t.data.any Char.isDigit = true
    · rw [if_pos h2] at h; cases h
    · rw [if_neg h2, if_pos hmem] at h; cases h

theorem lower_ne_of_tokens (a : String)
    (htok : ∀ t ∈ pySplit a, passesFilter t = true)
    (w : String) (hw_stop : w ∈ STOPWORDS_LOWER) (hw_nsuf : w ∉ SUFFIX_ALLOW)
    (hw_ne : w ≠ "") (hw_ws : ∀ ch ∈ w.data, pyIsSpace ch = false) :
    pyLower a ≠ w := by
  intro hlw
  have hane : a ≠ "" := by
    intro h; subst h
    apply hw_ne
    rw [← hlw]
    rfl
  have haws : ∀ ch ∈ a.data, pyIsSpace ch = false := by
    intro ch hch
    cases hcw : pyIsSpace ch with
    | false => rfl
    | true =>
      exfalso
      have hmem : Char.toLower ch ∈ (pyLower a).data := by
        show Char.toLower ch ∈ a.data.map Char.toLower
        exact List.mem_map_of_mem _ hch
      rw [hlw] at hmem
      have h2 := hw_ws _ hmem
      rw [toLower_of_ws ch hcw] at h2
      rw [h2] at hcw
      cases hcw
  have hdata : a.data ≠ [] := by
    intro h
    apply hane
    cases a with
    | mk l => simp_all
  have hsingle : pySplit a = [a] := by
    show (wsTokensAux [] a.data).map (fun l => (⟨l⟩ : String)) = [a]
    have hstep := tokens_append_nws a.data [] [] haws
    simp only [List.append_nil] at hstep
    rw [hstep]
    show (if a.data.reverse = [] then ([] : List (List Char))
        else [a.data.reverse.reverse]).map (fun l => (⟨l⟩ : String)) = [a]
    rw [if_neg (by simpa using hdata), List.reverse_reverse]
    simp
  have hp := htok a (by rw [hsingle]; exact List.mem_cons_self _ _)
  unfold passesFilter at hp
  rw [Bool.or_eq_true] at hp
  rcases hp with h1 | h2
  · exact token_ok_not_stopword a h1 (by rw [hlw]; exact hw_stop)
  · rw [decide_eq_true_eq, hlw] at h2
    exact hw_nsuf h2

theorem not_banned_of_tokens (a b : String)
    (ha : ∀ t ∈ pySplit a, passesFilter t = true) :
    (pyLower a, pyLower b) ∉ BAD_PAIR_LOWER := by
  intro hmem
  simp only [BAD_PAIR_LOWER, List.mem_cons, Prod.mk.injEq,
    List.not_mem_nil, or_false] at hmem
  rcases hmem with ⟨h, _⟩ | ⟨h, _⟩ | ⟨h, _⟩ | ⟨h, _⟩ | ⟨h, _⟩ | ⟨h, _⟩
  · exact lower_ne_of_tokens a ha "verification"
      (by decide) (by decide) (by decide) (by decide) h
  · exact lower_ne_of_tokens a ha "school"
      (by decide) (by decide) (by decide) (by decide) h
  · exact lower_ne_of_tokens a ha "lower"
      (by decide) (by decide) (by decide) (by decide) h
  · exact lower_ne_of_tokens a ha "score"
      (by decide) (by decide) (by decide) (by decide) h
  · exact lower_ne_of_tokens a ha "average"
      (by decide) (by decide) (by decide) (by decide) h
  · exact lower_ne_of_tokens a ha "student"
      (by decide) (by decide) (by decide) (by decide) h

theorem looks_like_name_spec (l f : String) (h : looks_like_name l f = true) :
    clean_name_side l ≠ "" ∧ clean_name_side f ≠ "" ∧
    (pyLower (clean_name_side l), pyLower (clean_name_side f)) ∉ BAD_PAIR_LOWER := by
  unfold looks_like_name at h
  split at h
  · cases h
  · next hemp =>
    split at h
    · cases h
    · next hbad =>
      have h1 := of_decide_eq_false hemp
      push_neg at h1
      exact ⟨h1.1, h1.2, of_decide_eq_false hbad⟩

theorem validCand_of_cleans (l f : String) (sc : Int)
    (h1 : clean_name_side l ≠ "") (h2 : clean_name_side f ≠ "")
    (h3 : (pyLower (clean_name_side l), pyLower (clean_name_side f))
      ∉ BAD_PAIR_LOWER) :
    validCand (clean_name_side l, clean_name_side f, sc) := by
  unfold validCand
  refine ⟨h1, h2, h3, ?_⟩
  intro t ht
  rcases List.mem_append.mp ht with h' | h'
  · exact clean_tokens_pass l t h'
  · exact clean_tokens_pass f t h'

theorem fnameEmit_valid (base : String) (flip hcomma : Bool) (m : RMatch)
    (c : Cand) (he : fnameEmit base flip hcomma m = some c) : validCand c := by
  unfold fnameEmit at he
  split at he
  · next hg =>
    injection he with he2
    rw [← he2]
    obtain ⟨h1, h2, h3⟩ := looks_like_name_spec _ _ hg
    exact validCand_of_cleans _ _ _ h1 h2 h3
  · cases he

theorem dvfEmit_valid (blob : String) (m : RMatch) (c : Cand)
    (he : dvfEmit blob m = some c) : validCand c := by
  unfold dvfEmit at he
  split at he
  · next hg =>
    injection he with he2
    rw [← he2]
    obtain ⟨h1, h2, h3⟩ := looks_like_name_spec _ _ hg
    exact validCand_of_cleans _ _ _ h1 h2 h3
  · cases he

set_option maxHeartbeats 2000000 in
theorem generalEmit_valid (blob : String) (hcomma : Bool) (m : RMatch)
    (c : Cand) (he : generalEmit blob hcomma m = some c) : validCand c := by
  unfold generalEmit at he
  split at he
  · cases he
  · split at he
    · next hg =>
      injection he with he2
      rw [← he2]
      rw [Bool.and_eq_true] at hg
      obtain ⟨hxy, hz⟩ := hg
      rw [Bool.and_eq_true] at hxy
      obtain ⟨hx, hy⟩ := hxy
      rw [Bool.not_eq_true'] at hx hy
      have hg1 : clean_name_side (rawPair blob hcomma m).1 ≠ "" :=
        beq_eq_false_iff_ne.mp hx
      have hg2 : clean_name_side (rawPair blob hcomma m).2 ≠ "" :=
        beq_eq_false_iff_ne.mp hy
      unfold validCand
      refine ⟨hg1, hg2,
        not_banned_of_tokens (clean_name_side (rawPair blob hcomma m).1)
          (clean_name_side (rawPair blob hcomma m).2)
          (clean_tokens_pass (rawPair blob hcomma m).1), ?_⟩
      intro t ht
      rcases List.mem_append.mp ht with h' | h'
      · exact clean_tokens_pass (rawPair blob hcomma m).1 t h'
      · exact clean_tokens_pass (rawPair blob hcomma m).2 t h'
    · cases he

/-- C8: every candidate that any extractor emits has already passed the
validator: both name sides are non-empty, the lowercased (last, first)
pair is not on the banned-pair list, and every whitespace token of
either side passes the token filter (name-shaped or an allowed
suffix). -/
theorem claim8_candidate_validity :
    (∀ (fname : String) (c : Cand),
        c ∈ candidates_from_filename fname → validCand c) ∧
    (∀ (rawText : String) (c : Cand),
        c ∈ candidates_from_pdf rawText → validCand c) := by
  have hf : ∀ (base : String) (pat : RE) (flip hcomma : Bool) (c : Cand),
      c ∈ fnameCandsFrom base pat flip hcomma → validCand c := by
    intro base pat flip hcomma c hc
    unfold fnameCandsFrom at hc
    obtain ⟨m, _, he⟩ := List.mem_filterMap.mp hc
    exact fnameEmit_valid base flip hcomma m c he
  have hgen : ∀ (blob : String) (pat : RE) (hcomma : Bool) (c : Cand),
      c ∈ generalCandsPat blob pat hcomma → validCand c := by
    intro blob pat hcomma c hc
    unfold generalCandsPat at hc
    obtain ⟨m, _, he⟩ := List.mem_filterMap.mp hc
    exact generalEmit_valid blob hcomma m c he
  constructor
  · intro fname c hc
    unfold candidates_from_filename at hc
    rcases List.mem_append.mp hc with h | h
    · rcases List.mem_append.mp h with h2 | h2
      · exact hf _ _ _ _ _ h2
      · exact hf _ _ _ _ _ h2
    · exact hf _ _ _ _ _ h
  · intro rawText c hc
    rw [candidates_from_pdf_eq] at hc
    rcases List.mem_append.mp hc with h | h
    · unfold dvfCands at h
      obtain ⟨m, _, he⟩ := List.mem_filterMap.mp h
      exact dvfEmit_valid _ m c he
    · unfold generalCands at h
      rcases List.mem_append.mp h with h2 | h2
      · rcases List.mem_append.mp h2 with h3 | h3
        · exact hgen _ _ _ _ h3
        · exact hgen _ _ _ _ h3
      · exact hgen _ _ _ _ h2

set_option maxRecDepth 100000 in
theorem claim8_witness :
    (("Wynn", "Hannah", (19 : Int)) ∈ candidates_from_filename "Wynn, Hannah.pdf") ∧
    validCand ("Wynn", "Hannah", (19 : Int)) ∧
    (("Abdulraheem", "Hanan", (34 : Int)) ∈
      candidates_from_pdf "Student Name: Abdulraheem, Hanan Grade: 7") ∧
    validCand ("Abdulraheem", "Hanan", (34 : Int)) :=
  ⟨by decide,
   claim8_candidate_validity.1 "Wynn, Hannah.pdf"
     ("Wynn", "Hannah", (19 : Int)) (by decide),
   by decide,
   claim8_candidate_validity.2 "Student Name: Abdulraheem, Hanan Grade: 7"
     ("Abdulraheem", "Hanan", (34 : Int)) (by decide)⟩

end FileIndexer
